import Mathlib

/-!
# LRU read cache, file store and session loop of the NFS-style server

A shallow embedding of `src/cpp-core/server.cpp`.

Conventions of the embedding.

* A C++ `char` is a Lean `Char`; a `std::string` and a `std::vector<char>` are a `List Char`.
* `long long` values are `Int`; the narrowing casts of the source (`(long)off`, `(unsigned)len`,
  `(int)len`, `int n = ...`) are written out as explicit wrap-arounds modulo `2^32`.  The server
  is a Windows program (`winsock2.h`, `io.h`, `_open`, `_lseek`, `_read`, `_write`), where `int`,
  `long` and `unsigned` are 32 bits wide and `size_t` is 64 bits wide.
* The data directory and its `.trash` subdirectory are finite association lists from file names
  to file contents.  File names are opaque identifiers of regular files: the path syntax inside a
  name is not interpreted, and opening a name does not fail.
* One session runs at a time, so the mutexes of the source are the identity.
* The socket delivers the bytes to come in segments; sending does not fail.
* An exception that leaves `handle_client` ends the process (`std::terminate`): there is no
  `try` block in the source.  Memory is not exhausted: a buffer within `max_size` is allocated.
* A file held open by the descriptor of the session cannot be renamed (the C runtime opens files
  without delete sharing); `fs::rename` replaces an existing destination file.
* The loops of the source are recursions over the input they consume, or carry a bound on their
  turns that the theorems show is not reached.
-/

namespace LruNfs

/-! ## Definitions -/

/-- Bytes of a buffer, a file or a line. -/
abbrev Bytes := List Char

/-- File name (`std::string`). -/
abbrev Name := List Char

/-! ### LRU cache (`struct Key`, `class LRU`) -/

/-- The cache key of the source: `struct Key { long long off, len; }` with field-wise `==`. -/
structure Key where
  off : Int
  len : Int
deriving DecidableEq

/-- The cache of the source, `class LRU`.  `order_` is the `std::list<Node>` with the most recently
used node first.  The `std::unordered_map map_` of the source is the index of `order_` (each key
of a node mapped to the iterator of that node), so `map_.find` is a search in `order_` and
`map_.size()` is the number of nodes. -/
structure LRU where
  order_ : List (Key × Bytes)
  cap_ : Nat
deriving DecidableEq

/-- The node `map_.find(k)` points to, when there is one. -/
def find_node (k : Key) : List (Key × Bytes) → Option (Key × Bytes)
  | [] => none
  | n :: ns => if n.1 = k then some n else find_node k ns

/-- The list without the node `map_.find(k)` points to (the node a `splice` moves away). -/
def unlink (k : Key) : List (Key × Bytes) → List (Key × Bytes)
  | [] => []
  | n :: ns => if n.1 = k then ns else n :: unlink k ns

/-- The constructor `LRU(size_t cap)`. -/
def LRU.new (cap : Nat) : LRU := { order_ := [], cap_ := cap }

/-- `LRU::get`: on a miss nothing changes and nothing is returned; on a hit the node is spliced to
the front and a copy of its bytes is returned. -/
def LRU.get (c : LRU) (k : Key) : LRU × Option Bytes :=
  match find_node k c.order_ with
  | none => (c, none)
  | some n => ({ c with order_ := n :: unlink k c.order_ }, some n.2)

/-- `LRU::put`: an existing node gets the new bytes and is spliced to the front; otherwise a new
node is put at the front and, when `map_.size() > cap_`, the node at the back is dropped. -/
def LRU.put (c : LRU) (k : Key) (val : Bytes) : LRU :=
  match find_node k c.order_ with
  | some _ => { c with order_ := (k, val) :: unlink k c.order_ }
  | none =>
    if ((k, val) :: c.order_).length > c.cap_ then
      { c with order_ := ((k, val) :: c.order_).dropLast }
    else
      { c with order_ := (k, val) :: c.order_ }

/-- `LRU::clear`. -/
def LRU.clear (c : LRU) : LRU := { c with order_ := [] }

/-- The keys held, most recently used first. -/
def LRU.keys (c : LRU) : List Key := c.order_.map Prod.fst

/-- The number of entries held, `map_.size()`. -/
def LRU.size (c : LRU) : Nat := c.order_.length

/-- One call on a cache. -/
inductive Op where
  | get (k : Key)
  | put (k : Key) (val : Bytes)
  | clear
deriving DecidableEq

/-- The cache after one call. -/
def LRU.apply (c : LRU) : Op → LRU
  | Op.get k => (c.get k).1
  | Op.put k val => c.put k val
  | Op.clear => c.clear

/-- The cache after a sequence of calls. -/
def LRU.run (c : LRU) (ops : List Op) : LRU := ops.foldl LRU.apply c

/-- Whether a call touches key `k` in cache `c`: a `put` of `k`, or a `get` of `k` that hits. -/
def touches (c : LRU) (k : Key) : Op → Bool
  | Op.get j => decide (j = k) && (find_node k c.order_).isSome
  | Op.put j _ => decide (j = k)
  | Op.clear => false

/-- The access history read off the spec: `last_touch k c ops now last` is the time of the most
recent call of `ops` (applied to `c`, the first call at time `now + 1`) that touched `k`, and
`last` when none did. -/
def last_touch (k : Key) : LRU → List Op → Nat → Nat → Nat
  | _, [], _, last => last
  | c, op :: ops, now, last =>
    last_touch k (c.apply op) ops (now + 1) (if touches c k op then now + 1 else last)

/-- Time of the most recent touch of `k` in the history `ops` of a cache that started empty;
`0` when `k` was never touched. -/
def touched_at (cap : Nat) (ops : List Op) (k : Key) : Nat :=
  last_touch k (LRU.new cap) ops 0 0


/-- The nodes are ordered by strictly decreasing time of last touch, none later than `now`. -/
def Recent (T : Key → Nat) (now : Nat) (l : List (Key × Bytes)) : Prop :=
  l.Pairwise (fun a b => T b.1 < T a.1) ∧ ∀ n ∈ l, T n.1 ≤ now

/-! ### Machine integers -/

/-- The casts `(long)x` and `(int)x` of a `long long`: the value modulo `2^32`, read as a signed
32-bit number. -/
def to_long (x : Int) : Int := (x + 2 ^ 31) % 2 ^ 32 - 2 ^ 31

/-- The cast `(unsigned)x` of a `long long`. -/
def to_unsigned (x : Int) : Nat := (x % 2 ^ 32).toNat

/-- The cast `(size_t)x` of a `long long`. -/
def to_size_t (x : Int) : Nat := (x % 2 ^ 64).toNat

/-- Largest size of a `std::vector<char>`; a larger request throws `std::length_error`. -/
def vector_max_size : Nat := 2 ^ 63 - 1

/-- `INT_MAX`. -/
def INT_MAX : Nat := 2 ^ 31 - 1

/-! ### Strings -/

/-- `std::to_string` of a non-negative number: its decimal digits. -/
def to_string (n : Nat) : Bytes := Nat.toDigits 10 n

/-- `std::to_string` of a `long long`. -/
def to_string_ll (x : Int) : Bytes :=
  if x < 0 then '-' :: to_string x.natAbs else to_string x.natAbs

/-- `std::string::find(ch, pos)`: index of the first `ch` at or after `pos`; `none` is `npos`. -/
def find_char (ch : Char) : Bytes → Nat → Option Nat
  | [], _ => none
  | c :: cs, 0 => if c = ch then some 0 else (find_char ch cs 0).map (· + 1)
  | _ :: cs, pos + 1 => (find_char ch cs pos).map (· + 1)

/-- `p + 1` in `size_t` arithmetic: `npos + 1` wraps to `0`. -/
def npos_succ : Option Nat → Nat
  | none => 0
  | some i => i + 1

/-- `s.substr(pos)`. -/
def substr_from (s : Bytes) (pos : Nat) : Bytes := s.drop pos

/-- `s.substr(pos, p2 - pos)` in `size_t` arithmetic: with `p2 = npos` the count exceeds the
string and the rest of the string is taken. -/
def substr_until (s : Bytes) (pos : Nat) (p2 : Option Nat) : Bytes :=
  match p2 with
  | none => s.drop pos
  | some j => (s.drop pos).take (j - pos)

/-- `isspace` in the C locale. -/
def is_space (c : Char) : Bool :=
  c = ' ' || c = '\t' || c = '\n' || c = '\r' || c.toNat = 11 || c.toNat = 12

/-- Decimal digit. -/
def is_digit (c : Char) : Bool := decide (48 ≤ c.toNat) && decide (c.toNat ≤ 57)

/-- Value of a run of decimal digits. -/
def digits_value (ds : Bytes) : Nat := ds.foldl (fun a c => 10 * a + (c.toNat - 48)) 0

/-- What `std::stoll` does: a value, or one of its two exceptions. -/
inductive Stoll where
  | value (v : Int)
  | invalid_argument
  | out_of_range
deriving DecidableEq

/-- `std::stoll(s)` (base 10): skips leading white space, reads an optional sign and the longest
run of digits, ignores what follows; throws `std::invalid_argument` when there is no digit and
`std::out_of_range` when the value does not fit a `long long`. -/
def stoll (s : Bytes) : Stoll :=
  let s1 := s.dropWhile is_space
  let neg := s1.head? = some '-'
  let s2 := if s1.head? = some '-' ∨ s1.head? = some '+' then s1.tail else s1
  let ds := s2.takeWhile is_digit
  if ds = [] then Stoll.invalid_argument
  else
    let v : Int := if neg then - (digits_value ds : Int) else (digits_value ds : Int)
    if v < - 2 ^ 63 ∨ 2 ^ 63 - 1 < v then Stoll.out_of_range else Stoll.value v

/-! ### Directories and open files -/

/-- Directory: its regular files, name and contents. -/
abbrev Dir := List (Name × Bytes)

/-- Contents of the file `name`, when it exists. -/
def dir_find (name : Name) : Dir → Option Bytes
  | [] => none
  | e :: es => if e.1 = name then some e.2 else dir_find name es

/-- The directory without the file `name`. -/
def dir_erase (name : Name) : Dir → Dir
  | [] => []
  | e :: es => if e.1 = name then dir_erase name es else e :: dir_erase name es

/-- The directory with `content` stored under `name`: an existing file of that name is replaced
where it stands, otherwise the file is added. -/
def dir_set (name : Name) (content : Bytes) : Dir → Dir
  | [] => [(name, content)]
  | e :: es => if e.1 = name then (name, content) :: es else e :: dir_set name content es

/-- `fs::exists` of a file of a directory. -/
def dir_exists (name : Name) (d : Dir) : Bool := (dir_find name d).isSome

/-- The data directory `DATA_DIR` and its `.trash` subdirectory. -/
structure Disk where
  data : Dir
  trash : Dir
deriving DecidableEq

/-- An open descriptor: the file of the data directory it refers to, and its file position. -/
structure OpenFile where
  name : Name
  pos : Nat
deriving DecidableEq

/-- `open_rw_create(path_for(name))`: opens the file, creating it empty when it does not exist.
With opaque names the open does not fail. -/
def open_rw_create (data : Dir) (name : Name) : Dir × Option OpenFile :=
  match dir_find name data with
  | some _ => (data, some { name := name, pos := 0 })
  | none => (dir_set name [] data, some { name := name, pos := 0 })

/-- `_lseek(fd, offset, SEEK_SET)`: fails, leaving the position where it was, on a bad
descriptor and on a negative offset (`EINVAL`); the callers ignore the result. -/
def _lseek (f : Option OpenFile) (offset : Int) : Option OpenFile :=
  match f with
  | none => none
  | some o => if offset < 0 then some o else some { o with pos := offset.toNat }

/-- `_read(fd, buf, count)`: the descriptor after the call, the return value and the bytes read.
Returns `-1` on a bad descriptor and when `count > INT_MAX` (`EINVAL`, the invalid-parameter
handler letting the call return); otherwise reads the bytes from the file position up to `count`
of them or the end of the file. -/
def _read (data : Dir) (f : Option OpenFile) (count : Nat) : Option OpenFile × Int × Bytes :=
  match f with
  | none => (none, -1, [])
  | some o =>
    if count > INT_MAX then (some o, -1, [])
    else
      match dir_find o.name data with
      | none => (some o, -1, [])
      | some content =>
        (some { o with pos := o.pos + ((content.drop o.pos).take count).length },
          (((content.drop o.pos).take count).length : Int), (content.drop o.pos).take count)

/-- File contents after `bytes` are written at position `pos`: a gap between the end of the file
and `pos` is filled with zero bytes. -/
def write_at (content : Bytes) (pos : Nat) (bytes : Bytes) : Bytes :=
  content.take pos ++ List.replicate (pos - content.length) (Char.ofNat 0) ++ bytes
    ++ content.drop (pos + bytes.length)

/-- `_write(fd, buf, count)`: the data directory and the descriptor after the call and the return
value, an `int`.  Writes the first `count` bytes of `buf` at the file position; a write of no
byte does nothing and returns `0`. -/
def _write (data : Dir) (f : Option OpenFile) (buf : Bytes) (count : Nat) :
    Dir × Option OpenFile × Int :=
  match f with
  | none => (data, none, -1)
  | some o =>
    if count = 0 then (data, some o, 0)
    else
      match dir_find o.name data with
      | none => (data, some o, -1)
      | some content =>
        (dir_set o.name (write_at content o.pos (buf.take count)) data,
          some { o with pos := o.pos + (buf.take count).length },
          to_long ((buf.take count).length : Int))

/-- Whether the descriptor holds the file `name` open.  A file held open cannot be renamed:
`_open` shares it for reading and writing only. -/
def holds (f : Option OpenFile) (name : Name) : Bool :=
  match f with
  | none => false
  | some o => decide (o.name = name)

/-- `fs::rename(from, to, ec)` from one directory into the other: `none` when `ec` is set, which
is when there is no source file or the source file is held open; an existing destination file is
replaced. -/
def fs_rename (held : Bool) (src : Dir) (name : Name) (dst : Dir) (dname : Name) :
    Option (Dir × Dir) :=
  if held then none
  else
    match dir_find name src with
    | none => none
    | some content => some (dir_erase name src, dir_set dname content dst)

/-! ### Cache registry -/

/-- `g_fileCaches`: the cache of each file name that has one. -/
abbrev Registry := List (Name × LRU)

/-- `g_fileCaches.find(name)`. -/
def reg_find (name : Name) : Registry → Option LRU
  | [] => none
  | e :: es => if e.1 = name then some e.2 else reg_find name es

/-- The registry with the cache of `name` set to `c`. -/
def reg_set (name : Name) (c : LRU) : Registry → Registry
  | [] => [(name, c)]
  | e :: es => if e.1 = name then (name, c) :: es else e :: reg_set name c es

/-- `g_fileCaches.erase(it)`. -/
def reg_erase (name : Name) : Registry → Registry
  | [] => []
  | e :: es => if e.1 = name then reg_erase name es else e :: reg_erase name es

/-- `cache_for(name)`: the registry after the call (a cache of capacity 128 is registered when
the name has none) and the cache the returned pointer refers to. -/
def cache_for (reg : Registry) (name : Name) : Registry × LRU :=
  match reg_find name reg with
  | some c => (reg, c)
  | none => (reg_set name (LRU.new 128) reg, LRU.new 128)

/-! ### Server state -/

/-- `DEFAULT_FN`. -/
def DEFAULT_FN : Name := "store.bin".toList

/-- State of the process and of the one session: the disk, `g_fileCaches`, and the locals
`trace_id`, `current_name` and `fd` of `handle_client` (`fd < 0` is `none`). -/
structure State where
  disk : Disk
  g_fileCaches : Registry
  trace_id : Bytes
  current_name : Name
  fd : Option OpenFile
deriving DecidableEq

/-! ### Read and write -/

/-- `do_read(fd, fname, off, len, out)` on the descriptor of the session: the state after the
call and `out` when the call returns `true`, `none` when it returns `false`. -/
def do_read (st : State) (fname : Name) (off len : Int) : State × Option Bytes :=
  if off < 0 ∨ len < 0 then (st, none)
  else
    let reg := (cache_for st.g_fileCaches fname).1
    let lru := (cache_for st.g_fileCaches fname).2
    match (lru.get (Key.mk off len)).2 with
    | some out => ({ st with g_fileCaches := reg_set fname (lru.get (Key.mk off len)).1 reg }, some out)
    | none =>
      let r := _read st.disk.data (_lseek st.fd (to_long off)) (to_unsigned len)
      if r.2.1 < 0 then ({ st with g_fileCaches := reg, fd := r.1 }, none)
      else
        ({ st with g_fileCaches := reg_set fname (lru.put (Key.mk off len) r.2.2) reg, fd := r.1 },
          some r.2.2)

/-- `do_write(fd, fname, off, data, len)` on the descriptor of the session: the state after the
call and the returned `bool`. -/
def do_write (st : State) (fname : Name) (off : Int) (buf : Bytes) (len : Int) : State × Bool :=
  if off < 0 ∨ len < 0 then (st, false)
  else
    let reg :=
      match reg_find fname st.g_fileCaches with
      | some c => reg_set fname c.clear st.g_fileCaches
      | none => st.g_fileCaches
    let w := _write st.disk.data (_lseek st.fd (to_long off)) buf (to_unsigned len)
    ({ st with disk := { st.disk with data := w.1 }, g_fileCaches := reg, fd := w.2.1 },
      decide (w.2.2 = len))

/-! ### Listings, delete -/

/-- `file_size_bytes(name)`: the size, or `-1`. -/
def file_size_bytes (data : Dir) (name : Name) : Int :=
  match dir_find name data with
  | some content => (content.length : Int)
  | none => -1

/-- `list_files_payload()`: one line per file of the data directory, without `store.bin`,
`default.tmp` and the names that start with a dot. -/
def list_files_payload : Dir → Bytes
  | [] => []
  | e :: es =>
    if e.1 = DEFAULT_FN ∨ e.1 = "default.tmp".toList ∨ e.1.head? = some '.' then
      list_files_payload es
    else e.1 ++ '\n' :: list_files_payload es

/-- `list_trash_payload()`: one line per file of the trash directory. -/
def list_trash_payload : Dir → Bytes
  | [] => []
  | e :: es => e.1 ++ '\n' :: list_trash_payload es

/-- `delete_file_and_cache(name)`: moves the file to the trash under its own name with
`fs::rename` and, when the move succeeds, clears, deletes and unregisters its cache.  The state
after the call and the returned `bool`. -/
def delete_file_and_cache (st : State) (name : Name) : State × Bool :=
  match fs_rename (holds st.fd name) st.disk.data name st.disk.trash name with
  | none => (st, false)
  | some d =>
    ({ st with disk := { data := d.1, trash := d.2 },
               g_fileCaches := reg_erase name st.g_fileCaches }, true)

/-! ### Collision-safe names (`fs::path::stem`, `fs::path::extension`, the `while` loops) -/

/-- `fs::path(name).filename()`: what follows the last directory separator. -/
def filename (name : Name) : Name :=
  (name.reverse.takeWhile (fun c => !(c = '/' || c = '\\'))).reverse

/-- `fs::path(name).extension()`: the file name from its last dot on; empty when there is no
dot, when the last dot is the first character, and for the file name `..`. -/
def extension (name : Name) : Name :=
  let f := filename name
  if f = ['.', '.'] ∨ ¬ ('.' ∈ f) then []
  else
    let ext := '.' :: (f.reverse.takeWhile (fun c => !(c = '.'))).reverse
    if ext.length = f.length then [] else ext

/-- `fs::path(name).stem()`: the file name without its extension. -/
def stem (name : Name) : Name :=
  (filename name).take ((filename name).length - (extension name).length)

/-- The candidate `base + " (" + std::to_string(counter) + ")" + ext`. -/
def numbered (base ext : Name) (counter : Nat) : Name :=
  base ++ " (".toList ++ to_string counter ++ ")".toList ++ ext

/-- The loop `while (fs::exists(dst)) dst = base + " (" + to_string(counter++) + ")" + ext`,
at most `fuel` tests of the condition: the destination the loop ends with and the value of
`counter` then, `none` when the tests are used up. -/
def free_name_loop (dir : Dir) (base ext : Name) : Nat → Nat → Name → Option (Name × Nat)
  | 0, _, _ => none
  | fuel + 1, counter, dst =>
    if dir_exists dst dir then
      free_name_loop dir base ext fuel (counter + 1) (numbered base ext counter)
    else some (dst, counter)

/-- The destination chosen for `name` in the directory `dir` by the TRASH and RESTORE branches;
the loop gets two tests more than the directory has files. -/
def free_name (dir : Dir) (name : Name) : Option (Name × Nat) :=
  free_name_loop dir (stem name) (extension name) (dir.length + 2) 1 name

/-! ### Transport -/

/-- What is still to arrive on the socket, in the segments `recv` will deliver; the peer closes
after the last one (`recv` returns `0`). -/
abbrev Transport := List Bytes

/-- Scan of one segment by `recv_line`. -/
inductive LineScan where
  | done (line rest : Bytes)
  | more (out : Bytes)
  | too_long

/-- The loop of `recv_line` over the bytes of one segment, one `recv(s, &c, 1, 0)` per byte:
`out` is the line so far. -/
def recv_line_seg : Bytes → Bytes → LineScan
  | [], out => LineScan.more out
  | c :: seg, out =>
    if c = '\n' then LineScan.done out seg
    else if (if c = '\r' then out else out ++ [c]).length > 4096 then LineScan.too_long
    else recv_line_seg seg (if c = '\r' then out else out ++ [c])

/-- The loop of `recv_line` over the segments. -/
def recv_line_loop : Transport → Bytes → Option (Bytes × Transport)
  | [], _ => none
  | seg :: rest, out =>
    match recv_line_seg seg out with
    | LineScan.done line seg2 => some (line, seg2 :: rest)
    | LineScan.too_long => none
    | LineScan.more out2 => recv_line_loop rest out2

/-- `recv_line(s, out)`: the line and the transport after it, `none` when it returns `false`. -/
def recv_line (net : Transport) : Option (Bytes × Transport) := recv_line_loop net []

/-- The loop of `recv_n`: `need` is `len - got`, `buf` the bytes received so far; each `recv`
delivers the next segment, or the first `need` bytes of it. -/
def recv_n_loop : Transport → Nat → Bytes → Option (Bytes × Transport)
  | net, 0, buf => some (buf, net)
  | [], _ + 1, _ => none
  | seg :: rest, need + 1, buf =>
    if seg.length ≤ need + 1 then recv_n_loop rest (need + 1 - seg.length) (buf ++ seg)
    else some (buf ++ seg.take (need + 1), seg.drop (need + 1) :: rest)

/-- `recv_n(s, buf, len)` with `len` an `int`: the bytes stored and the transport after them,
`none` when it returns `false`. -/
def recv_n (net : Transport) (len : Int) : Option (Bytes × Transport) :=
  recv_n_loop net len.toNat []

/-! ### Command dispatch (`handle_client`) -/

/-- The reply `"OK\n"`. -/
def OK : Bytes := "OK\n".toList

/-- The reply `"ERR\n"`. -/
def ERR : Bytes := "ERR\n".toList

/-- The header `"OK " + std::to_string(n) + "\n"`. -/
def OK_n (n : Bytes) : Bytes := "OK ".toList ++ n ++ ['\n']

/-- What one turn of the command loop leads to. -/
inductive Outcome where
  | running (st : State) (net : Transport) (sent : Bytes)
  | terminated
  | hangs
deriving DecidableEq

/-- The `name` of OPEN, STAT and DELETE: `(p1 == npos) ? "" : line.substr(p1 + 1)`. -/
def name_or_empty (line : Bytes) (p1 : Option Nat) : Name :=
  match p1 with
  | none => []
  | some i => substr_from line (i + 1)

/-- The OPEN branch: the descriptor held is closed, `name` becomes the active file and is opened
(created when absent), and its cache is registered. -/
def cmd_OPEN (st : State) (net : Transport) (name : Name) : Outcome :=
  Outcome.running
    { st with current_name := name,
              disk := { st.disk with data := (open_rw_create st.disk.data name).1 },
              fd := (open_rw_create st.disk.data name).2,
              g_fileCaches := (cache_for st.g_fileCaches name).1 } net OK

/-- The READ branch after the two `std::stoll` calls. -/
def cmd_READ (st : State) (net : Transport) (off len : Int) : Outcome :=
  match (do_read st st.current_name off len).2 with
  | none => Outcome.running (do_read st st.current_name off len).1 net ERR
  | some bytes =>
    Outcome.running (do_read st st.current_name off len).1 net
      (OK_n (to_string bytes.length) ++ bytes)

/-- The WRITE branch after the two `std::stoll` calls: `std::vector<char> tmp((size_t)len)`
throws `std::length_error` beyond `max_size`; then `recv_n` with `(int)len`, `do_write`, and
the reply. -/
def cmd_WRITE (st : State) (net : Transport) (off len : Int) : Outcome :=
  if to_size_t len > vector_max_size then Outcome.terminated
  else
    match recv_n net (to_long len) with
    | none => Outcome.running st [] ERR
    | some r =>
      let tmp := r.1 ++ List.replicate (to_size_t len - r.1.length) (Char.ofNat 0)
      if (do_write st st.current_name off tmp len).2 then
        Outcome.running (do_write st st.current_name off tmp len).1 r.2 (OK_n (to_string_ll len))
      else Outcome.running (do_write st st.current_name off tmp len).1 r.2 ERR

/-- The DELETE branch. -/
def cmd_DELETE (st : State) (net : Transport) (name : Name) : Outcome :=
  let deleting_current := decide (name = st.current_name)
  let st1 := if deleting_current then { st with fd := none } else st
  let r := delete_file_and_cache st1 name
  let st2 :=
    if deleting_current then
      { r.1 with current_name := DEFAULT_FN,
                 disk := { r.1.disk with data := (open_rw_create r.1.disk.data DEFAULT_FN).1 },
                 fd := (open_rw_create r.1.disk.data DEFAULT_FN).2 }
    else r.1
  Outcome.running st2 net ((if r.2 then OK else ERR).take 3)

/-- The TRASH branch. -/
def cmd_TRASH (st : State) (net : Transport) (name : Name) : Outcome :=
  match free_name st.disk.trash name with
  | none => Outcome.hangs
  | some dst =>
    match fs_rename (holds st.fd name) st.disk.data name st.disk.trash dst.1 with
    | none => Outcome.running st net ERR
    | some d => Outcome.running { st with disk := { data := d.1, trash := d.2 } } net OK

/-- The RESTORE branch. -/
def cmd_RESTORE (st : State) (net : Transport) (name : Name) : Outcome :=
  match free_name st.disk.data name with
  | none => Outcome.hangs
  | some dst =>
    match fs_rename false st.disk.trash name st.disk.data dst.1 with
    | none => Outcome.running st net ERR
    | some d => Outcome.running { st with disk := { data := d.2, trash := d.1 } } net OK

/-- One turn of the `while (true)` loop of `handle_client` on the command line `line`. -/
def handle_line (st : State) (line : Bytes) (net : Transport) : Outcome :=
  let p1 := find_char ' ' line 0
  let cmd := match p1 with
    | none => line
    | some i => line.take i
  if cmd = "OPEN".toList then cmd_OPEN st net (name_or_empty line p1)
  else if cmd = "LIST".toList then
    Outcome.running st net
      (OK_n (to_string (list_files_payload st.disk.data).length)
        ++ list_files_payload st.disk.data)
  else if cmd = "STAT".toList then
    if file_size_bytes st.disk.data (name_or_empty line p1) < 0 then Outcome.running st net ERR
    else
      Outcome.running st net
        (OK_n (to_string_ll (file_size_bytes st.disk.data (name_or_empty line p1))))
  else if cmd = "READ".toList then
    let p2 := find_char ' ' line (npos_succ p1)
    match stoll (substr_until line (npos_succ p1) p2) with
    | Stoll.value off =>
      match stoll (substr_from line (npos_succ p2)) with
      | Stoll.value len => cmd_READ st net off len
      | _ => Outcome.terminated
    | _ => Outcome.terminated
  else if cmd = "WRITE".toList then
    let p2 := find_char ' ' line (npos_succ p1)
    match stoll (substr_until line (npos_succ p1) p2) with
    | Stoll.value off =>
      match stoll (substr_from line (npos_succ p2)) with
      | Stoll.value len => cmd_WRITE st net off len
      | _ => Outcome.terminated
    | _ => Outcome.terminated
  else if cmd = "DELETE".toList then cmd_DELETE st net (name_or_empty line p1)
  else if cmd = "LISTTRASH".toList then
    Outcome.running st net
      (OK_n (to_string (list_trash_payload st.disk.trash).length)
        ++ list_trash_payload st.disk.trash)
  else if cmd = "TRASH".toList then cmd_TRASH st net (substr_from line (npos_succ p1))
  else if cmd = "RESTORE".toList then cmd_RESTORE st net (substr_from line (npos_succ p1))
  else if cmd = "PURGETRASH".toList then
    Outcome.running
      { st with disk := { st.disk with
          trash := dir_erase (substr_from line (npos_succ p1)) st.disk.trash } } net OK
  else Outcome.running st net ERR

/-- How a session ends. -/
inductive Final where
  | closed (st : State) (sent : Bytes)
  | terminated (sent : Bytes)
  | hangs (sent : Bytes)
  | unfinished (st : State) (sent : Bytes)
deriving DecidableEq

/-- The `while (true)` loop of `handle_client`, at most `fuel` turns: `pending` is the first
line when it was not a TRACE line, `sent` the bytes sent so far. -/
def command_loop : Nat → State → Bytes → Transport → Bytes → Final
  | 0, st, _, _, sent => Final.unfinished st sent
  | fuel + 1, st, pending, net, sent =>
    if pending ≠ [] then
      match handle_line st pending net with
      | Outcome.running st2 net2 reply => command_loop fuel st2 [] net2 (sent ++ reply)
      | Outcome.terminated => Final.terminated sent
      | Outcome.hangs => Final.hangs sent
    else
      match recv_line net with
      | none => Final.closed { st with fd := none } sent
      | some r =>
        if r.1 = [] then command_loop fuel st [] r.2 sent
        else
          match handle_line st r.1 r.2 with
          | Outcome.running st2 net2 reply => command_loop fuel st2 [] net2 (sent ++ reply)
          | Outcome.terminated => Final.terminated sent
          | Outcome.hangs => Final.hangs sent

/-- `handle_client(cs)` on a server with the given disk and cache registry: the first line is
the trace id when it starts with `TRACE `, the first command otherwise; then `store.bin` is
opened (`ERR` and the end of the session when that fails) and the command loop runs. -/
def handle_client (fuel : Nat) (disk : Disk) (reg : Registry) (net : Transport) : Final :=
  match recv_line net with
  | none =>
    Final.closed
      { disk := disk, g_fileCaches := reg, trace_id := [], current_name := [], fd := none } []
  | some r =>
    let is_trace := "TRACE ".toList.isPrefixOf r.1
    let st : State :=
      { disk := { disk with data := (open_rw_create disk.data DEFAULT_FN).1 },
        g_fileCaches := reg,
        trace_id := if is_trace then r.1.drop 6 else [],
        current_name := DEFAULT_FN,
        fd := (open_rw_create disk.data DEFAULT_FN).2 }
    match st.fd with
    | none => Final.closed st ERR
    | some _ => command_loop fuel st (if is_trace then [] else r.1) r.2 []

/-- The bytes a session sent. -/
def Final.sent : Final → Bytes
  | Final.closed _ sent => sent
  | Final.terminated sent => sent
  | Final.hangs sent => sent
  | Final.unfinished _ sent => sent

/-- The bytes of a file in the range `[off, min(off + len, size))`. -/
def file_range (content : Bytes) (off len : Nat) : Bytes := (content.drop off).take len

/-- The destination the spec describes for `name` in the directory `dir`: a name that is free
in `dir`; `name` itself when that is free, otherwise `stem + " (n)" + extension` for the smallest
`n >= 1` whose name is free. -/
def Chosen (dir : Dir) (name dst : Name) : Prop :=
  dir_exists dst dir = false ∧
  (dir_exists name dir = false → dst = name) ∧
  (dir_exists name dir = true →
    ∃ n, 1 ≤ n ∧ dst = numbered (stem name) (extension name) n ∧
      ∀ i, 1 ≤ i → i < n → dir_exists (numbered (stem name) (extension name) i) dir = true)

/-! ### Sessions of OPEN, READ and WRITE, and the file store without a cache -/

/-- An offset or length the narrowing casts leave alone: `0 <= x < 2^31`. -/
def fits_long (x : Int) : Prop := 0 ≤ x ∧ x < 2 ^ 31

/-- A command of a session that only opens, reads and writes; a WRITE comes with its payload. -/
inductive Cmd where
  | open (name : Name)
  | read (off len : Int)
  | write (off : Int) (payload : Bytes)

/-- All offsets and lengths of the command fit a 32-bit `long`. -/
def Cmd.fits : Cmd → Prop
  | Cmd.open _ => True
  | Cmd.read off len => fits_long off ∧ fits_long len
  | Cmd.write off payload => fits_long off ∧ fits_long (payload.length : Int)

/-- The branch of `handle_client` a command runs; the payload of a WRITE is what is to arrive
on the socket. -/
def exec (st : State) : Cmd → Outcome
  | Cmd.open name => cmd_OPEN st [] name
  | Cmd.read off len => cmd_READ st [] off len
  | Cmd.write off payload => cmd_WRITE st [payload] off (payload.length : Int)

/-- The replies of a session to a sequence of commands, and the state it ends in; `none` when a
command ends the process or hangs. -/
def replies : State → List Cmd → Option (List Bytes × State)
  | st, [] => some ([], st)
  | st, c :: cs =>
    match exec st c with
    | Outcome.running st2 _ sent =>
      match replies st2 cs with
      | some r => some (sent :: r.1, r.2)
      | none => none
    | _ => none

/-- The file store the spec describes, without a cache: the data directory and the name of the
active file. -/
structure Store where
  data : Dir
  active : Name

/-- Contents of the active file (empty when there is none). -/
def Store.content (s : Store) : Bytes := (dir_find s.active s.data).getD []

/-- What the spec says a command does to the file store and replies: OPEN creates the file when
absent and replies `OK`; READ replies `OK n` and the bytes of the active file in the range
`[off, min(off + len, size))`; WRITE stores the payload at `off` and replies `OK len`. -/
def Store.exec (s : Store) : Cmd → Store × Bytes
  | Cmd.open name =>
    ({ data := if dir_exists name s.data then s.data else dir_set name [] s.data,
       active := name }, OK)
  | Cmd.read off len =>
    (s, OK_n (to_string (file_range s.content off.toNat len.toNat).length)
          ++ file_range s.content off.toNat len.toNat)
  | Cmd.write off payload =>
    ({ s with data :=
          if payload = [] then s.data
          else dir_set s.active (write_at s.content off.toNat payload) s.data },
      OK_n (to_string payload.length))

/-- The replies the spec prescribes for a sequence of commands, and the store at the end. -/
def Store.replies : Store → List Cmd → List Bytes × Store
  | s, [] => ([], s)
  | s, c :: cs => ((s.exec c).2 :: ((s.exec c).1.replies cs).1, ((s.exec c).1.replies cs).2)

/-- The cache `lru` of the file `name` is up to date: the file exists and every node holds, under
a key that fits a `long`, the bytes the file has in the range of the key. -/
def CacheOk (data : Dir) (name : Name) (lru : LRU) : Prop :=
  ∃ content, dir_find name data = some content ∧
    ∀ n ∈ lru.order_, fits_long n.1.off ∧ fits_long n.1.len ∧
      n.2 = file_range content n.1.off.toNat n.1.len.toNat

/-- State of a session whose descriptor refers to the active file, whose active file exists, and
whose caches hold, under keys that fit a `long`, the bytes their file has in the range of the
key. -/
def Coherent (st : State) : Prop :=
  (∃ o, st.fd = some o ∧ o.name = st.current_name) ∧
  (∃ content, dir_find st.current_name st.disk.data = some content) ∧
  ∀ name lru, reg_find name st.g_fileCaches = some lru → CacheOk st.disk.data name lru

/-- A reply the spec allows: `OK\n`, `ERR\n`, or `OK <n>\n` followed by `n` payload bytes or by
no payload. -/
def Framed (sent : Bytes) : Prop :=
  sent = OK ∨ sent = ERR ∨
    ∃ n payload, sent = OK_n (to_string n) ++ payload ∧ (payload = [] ∨ payload.length = n)

/-! ### The byte stream, lines of a payload, the session at its first command -/

/-- The byte stream the segments of a transport make up. -/
def stream (net : Transport) : Bytes := net.flatten

/-- A line as `recv_line` returns it: the bytes without the carriage returns. -/
def strip_cr (bytes : Bytes) : Bytes := bytes.filter (fun c => !(c = '\r'))

/-- The line the spec describes: the bytes before the line terminator, without one carriage
return when it is the last of them. -/
def strip_one_cr (bytes : Bytes) : Bytes :=
  if bytes.getLast? = some '\r' then bytes.dropLast else bytes

/-- `name` is one of the lines of `payload`: it starts the payload or follows a line terminator,
and a line terminator follows it. -/
def has_line (payload : Bytes) (name : Name) : Prop :=
  ∃ before after, payload = before ++ name ++ '\n' :: after ∧
    (before = [] ∨ before.getLast? = some '\n')

/-- The state in which `handle_client` enters its command loop: the locals after the first line
was read, `store.bin` opened as the active file. -/
def running_state (disk : Disk) (reg : Registry) (trace : Bytes) : State :=
  { disk := { disk with data := (open_rw_create disk.data DEFAULT_FN).1 },
    g_fileCaches := reg,
    trace_id := trace,
    current_name := DEFAULT_FN,
    fd := (open_rw_create disk.data DEFAULT_FN).2 }

/-- Example state: a session that has just started, the file `photo` with the bytes `hi` next
to the placeholder. -/
def photo_state : State :=
  { disk := { data := [("store.bin".toList, []), ("photo".toList, "hi".toList)], trash := [] },
    g_fileCaches := [], trace_id := [], current_name := DEFAULT_FN,
    fd := some { name := DEFAULT_FN, pos := 0 } }

/-- Example state: `photo_state` with `photo` moved to the trash. -/
def photo_trashed_state : State :=
  { disk := { data := [("store.bin".toList, [])], trash := [("photo".toList, "hi".toList)] },
    g_fileCaches := [], trace_id := [], current_name := DEFAULT_FN,
    fd := some { name := DEFAULT_FN, pos := 0 } }

/-! ## Lemmas on the node list -/

theorem find_node_none_iff (k : Key) (l : List (Key × Bytes)) :
    find_node k l = none ↔ k ∉ l.map Prod.fst := by
  induction l with
  | nil => simp [find_node]
  | cons n ns ih =>
    by_cases h : n.1 = k
    · simp [find_node, h]
    · have h2 : ¬ k = n.1 := fun e => h e.symm
      simp [find_node, h, h2, ih]

theorem find_node_some (k : Key) (l : List (Key × Bytes)) (n : Key × Bytes)
    (h : find_node k l = some n) : n.1 = k ∧ n ∈ l := by
  induction l with
  | nil => simp [find_node] at h
  | cons m ms ih =>
    by_cases hm : m.1 = k
    · simp [find_node, hm] at h
      subst h
      exact ⟨hm, List.mem_cons_self _ _⟩
    · simp [find_node, hm] at h
      exact ⟨(ih h).1, List.mem_cons_of_mem _ (ih h).2⟩

theorem unlink_sublist (k : Key) (l : List (Key × Bytes)) : (unlink k l).Sublist l := by
  induction l with
  | nil => simp [unlink]
  | cons m ms ih =>
    by_cases hm : m.1 = k
    · simp [unlink, hm]
    · simp [unlink, hm, ih]

theorem perm_cons_unlink (k : Key) (l : List (Key × Bytes)) (n : Key × Bytes)
    (h : find_node k l = some n) : l.Perm (n :: unlink k l) := by
  induction l with
  | nil => simp [find_node] at h
  | cons m ms ih =>
    by_cases hm : m.1 = k
    · simp [find_node, hm] at h
      subst h
      simp [unlink, hm]
    · simp [find_node, hm] at h
      simp only [unlink, hm, if_false]
      exact ((ih h).cons m).trans (List.Perm.swap n m _)

theorem length_unlink (k : Key) (l : List (Key × Bytes)) (n : Key × Bytes)
    (h : find_node k l = some n) : (unlink k l).length + 1 = l.length := by
  have := (perm_cons_unlink k l n h).length_eq
  simpa using this.symm

theorem find_node_unlink_ne (j k : Key) (l : List (Key × Bytes)) (h : j ≠ k) :
    find_node j (unlink k l) = find_node j l := by
  induction l with
  | nil => simp [unlink]
  | cons m ms ih =>
    by_cases hm : m.1 = k
    · have hkj : ¬ k = j := fun e => h e.symm
      simp [unlink, hm, find_node, hkj]
    · by_cases hj : m.1 = j
      · have hm2 : ¬ j = k := h
        simp [unlink, hm, find_node, hj, hm2]
      · simp [unlink, hm, find_node, hj, ih]

/-! ## The cache: capacity, values and eviction -/

theorem put_size_le (c : LRU) (k : Key) (val : Bytes) (h : c.size ≤ c.cap_) :
    (c.put k val).size ≤ (c.put k val).cap_ ∧ (c.put k val).cap_ = c.cap_ := by
  unfold LRU.put
  simp only [LRU.size] at h ⊢
  cases hf : find_node k c.order_ with
  | some n =>
    have hl := length_unlink k c.order_ n hf
    refine ⟨?_, rfl⟩
    show ((k, val) :: unlink k c.order_).length ≤ c.cap_
    simp only [List.length_cons]
    omega
  | none =>
    by_cases hc : ((k, val) :: c.order_).length > c.cap_
    · rw [if_pos hc]
      refine ⟨?_, rfl⟩
      show (((k, val) :: c.order_).dropLast).length ≤ c.cap_
      simp only [List.length_dropLast, List.length_cons]
      omega
    · rw [if_neg hc]
      refine ⟨?_, rfl⟩
      show ((k, val) :: c.order_).length ≤ c.cap_
      omega

theorem get_size_le (c : LRU) (k : Key) (h : c.size ≤ c.cap_) :
    (c.get k).1.size ≤ (c.get k).1.cap_ ∧ (c.get k).1.cap_ = c.cap_ := by
  unfold LRU.get
  simp only [LRU.size] at h ⊢
  cases hf : find_node k c.order_ with
  | some n =>
    have hl := length_unlink k c.order_ n hf
    refine ⟨?_, rfl⟩
    show (n :: unlink k c.order_).length ≤ c.cap_
    simp only [List.length_cons]
    omega
  | none => exact ⟨h, rfl⟩

theorem apply_size_le (c : LRU) (op : Op) (h : c.size ≤ c.cap_) :
    (c.apply op).size ≤ (c.apply op).cap_ ∧ (c.apply op).cap_ = c.cap_ := by
  cases op with
  | get k => exact get_size_le c k h
  | put k val => exact put_size_le c k val h
  | clear => simp [LRU.apply, LRU.clear, LRU.size]

theorem run_size_le (ops : List Op) (c : LRU) (h : c.size ≤ c.cap_) :
    (c.run ops).size ≤ (c.run ops).cap_ ∧ (c.run ops).cap_ = c.cap_ := by
  induction ops generalizing c with
  | nil => exact ⟨h, rfl⟩
  | cons op ops ih =>
    have h1 := apply_size_le c op h
    have h2 := ih (c.apply op) h1.1
    simp only [LRU.run, List.foldl_cons] at h2 ⊢
    exact ⟨h2.1, h2.2.trans h1.2⟩

/-- C3. Capacity invariant: whatever the capacity and whatever sequence of `get`, `put` and
`clear` calls is applied to an empty cache of that capacity, after each call (after every prefix
of the sequence) the cache holds at most `cap` entries. -/
theorem lru_capacity_invariant (cap : Nat) (ops : List Op) (n : Nat) :
    ((LRU.new cap).run (ops.take n)).size ≤ cap := by
  have h := run_size_le (ops.take n) (LRU.new cap) (by simp [LRU.new, LRU.size])
  have h2 : ((LRU.new cap).run (ops.take n)).cap_ = cap := h.2
  omega

theorem put_order_head (c : LRU) (k : Key) (v : Bytes) (hcap : 1 ≤ c.cap_) :
    ∃ tl, (c.put k v).order_ = (k, v) :: tl := by
  unfold LRU.put
  cases hf : find_node k c.order_ with
  | some n => exact ⟨_, rfl⟩
  | none =>
    by_cases hc : ((k, v) :: c.order_).length > c.cap_
    · rw [if_pos hc]
      have hne : c.order_ ≠ [] := by
        intro e
        rw [e] at hc
        simp at hc
        omega
      exact ⟨c.order_.dropLast, List.dropLast_cons_of_ne_nil hne⟩
    · rw [if_neg hc]
      exact ⟨_, rfl⟩

theorem put_present (c : LRU) (k : Key) (v : Bytes) (n : Key × Bytes)
    (hf : find_node k c.order_ = some n) :
    c.put k v = { c with order_ := (k, v) :: unlink k c.order_ } := by
  unfold LRU.put
  rw [hf]

/-- C5. Values of `get` and `put`, for every cache of capacity at least one: `get k` right after
`put k v` hits and returns `v`; when `k` was present, `put k v` stores `v` under `k`, holds the
same keys (none evicted, same count) and leaves the bytes of every other key alone; `get` of an
absent key returns nothing and leaves the cache (entries, values, order) as it was. -/
theorem lru_get_put_values (c : LRU) (k : Key) (v : Bytes) (hcap : 1 ≤ c.cap_) :
    ((c.put k v).get k).2 = some v ∧
    (k ∈ c.keys →
      find_node k (c.put k v).order_ = some (k, v) ∧
      (c.put k v).keys.Perm c.keys ∧
      (c.put k v).size = c.size ∧
      ∀ j, j ≠ k → find_node j (c.put k v).order_ = find_node j c.order_) ∧
    (k ∉ c.keys → c.get k = (c, none)) := by
  refine ⟨?_, ?_, ?_⟩
  · obtain ⟨tl, htl⟩ := put_order_head c k v hcap
    simp [LRU.get, htl, find_node]
  · intro hk
    have hsome : ∃ n, find_node k c.order_ = some n := by
      cases hf : find_node k c.order_ with
      | some n => exact ⟨n, rfl⟩
      | none => exact absurd hk ((find_node_none_iff k c.order_).1 hf)
    obtain ⟨n, hf⟩ := hsome
    have hn := find_node_some k c.order_ n hf
    have hperm := perm_cons_unlink k c.order_ n hf
    rw [put_present c k v n hf]
    refine ⟨by simp [find_node], ?_, ?_, ?_⟩
    · have h1 : (c.order_.map Prod.fst).Perm (k :: (unlink k c.order_).map Prod.fst) := by
        have := hperm.map Prod.fst
        simpa [hn.1] using this
      simpa [LRU.keys] using h1.symm
    · have := length_unlink k c.order_ n hf
      simp [LRU.size]
      omega
    · intro j hj
      have hkj : ¬ k = j := fun e => hj e.symm
      simp [find_node, hkj, find_node_unlink_ne j k c.order_ hj]
  · intro hk
    have hf := (find_node_none_iff k c.order_).2 hk
    simp [LRU.get, hf]

/-- Instance of `lru_get_put_values`: a cache of capacity 2 holding one entry under the key of the
`put`. -/
theorem lru_get_put_values_witness :
    (1 ≤ (LRU.mk [(Key.mk 0 4, ['o', 'l', 'd'])] 2).cap_) ∧
    ((((LRU.mk [(Key.mk 0 4, ['o', 'l', 'd'])] 2).put (Key.mk 0 4) ['n', 'e', 'w']).get
        (Key.mk 0 4)).2 = some ['n', 'e', 'w'] ∧
    (Key.mk 0 4 ∈ (LRU.mk [(Key.mk 0 4, ['o', 'l', 'd'])] 2).keys →
      find_node (Key.mk 0 4)
          ((LRU.mk [(Key.mk 0 4, ['o', 'l', 'd'])] 2).put (Key.mk 0 4) ['n', 'e', 'w']).order_
        = some (Key.mk 0 4, ['n', 'e', 'w']) ∧
      ((LRU.mk [(Key.mk 0 4, ['o', 'l', 'd'])] 2).put (Key.mk 0 4) ['n', 'e', 'w']).keys.Perm
        (LRU.mk [(Key.mk 0 4, ['o', 'l', 'd'])] 2).keys ∧
      ((LRU.mk [(Key.mk 0 4, ['o', 'l', 'd'])] 2).put (Key.mk 0 4) ['n', 'e', 'w']).size
        = (LRU.mk [(Key.mk 0 4, ['o', 'l', 'd'])] 2).size ∧
      ∀ j, j ≠ Key.mk 0 4 →
        find_node j
            ((LRU.mk [(Key.mk 0 4, ['o', 'l', 'd'])] 2).put (Key.mk 0 4) ['n', 'e', 'w']).order_
          = find_node j (LRU.mk [(Key.mk 0 4, ['o', 'l', 'd'])] 2).order_) ∧
    (Key.mk 0 4 ∉ (LRU.mk [(Key.mk 0 4, ['o', 'l', 'd'])] 2).keys →
      (LRU.mk [(Key.mk 0 4, ['o', 'l', 'd'])] 2).get (Key.mk 0 4)
        = (LRU.mk [(Key.mk 0 4, ['o', 'l', 'd'])] 2, none))) :=
  ⟨by decide, lru_get_put_values (LRU.mk [(Key.mk 0 4, ['o', 'l', 'd'])] 2) (Key.mk 0 4)
    ['n', 'e', 'w'] (by decide)⟩

/-! ### Recency order -/

theorem recent_unlink_ne (T : Key → Nat) (k : Key) (l : List (Key × Bytes))
    (hp : l.Pairwise (fun a b => T b.1 < T a.1)) :
    ∀ b ∈ unlink k l, b.1 ≠ k := by
  induction l with
  | nil => simp [unlink]
  | cons m ms ih =>
    rw [List.pairwise_cons] at hp
    by_cases hm : m.1 = k
    · simp only [unlink, hm, if_true]
      intro b hb e
      have := hp.1 b hb
      rw [hm, e] at this
      exact lt_irrefl _ this
    · simp only [unlink, hm, if_false]
      intro b hb
      rcases List.mem_cons.1 hb with rfl | hb
      · exact hm
      · exact ih hp.2 b hb

theorem recent_front (T : Key → Nat) (now : Nat) (k : Key) (v : Bytes) (l : List (Key × Bytes))
    (h : Recent T now l) (hk : ∀ b ∈ l, b.1 ≠ k) :
    Recent (fun j => if j = k then now + 1 else T j) (now + 1) ((k, v) :: l) := by
  constructor
  · rw [List.pairwise_cons]
    constructor
    · intro b hb
      have := h.2 b hb
      simp only [hk b hb, if_false, if_true]
      omega
    · refine h.1.imp_of_mem ?_
      intro a b ha hb hab
      simp only [hk a ha, hk b hb, if_false]
      exact hab
  · intro n hn
    rcases List.mem_cons.1 hn with rfl | hn
    · simp
    · have := h.2 n hn
      simp only [hk n hn, if_false]
      omega

theorem recent_sublist (T : Key → Nat) (now : Nat) (l l2 : List (Key × Bytes))
    (h : Recent T now l) (hs : l2.Sublist l) : Recent T now l2 :=
  ⟨h.1.sublist hs, fun n hn => h.2 n (hs.subset hn)⟩

theorem recent_mono (T : Key → Nat) (now : Nat) (l : List (Key × Bytes))
    (h : Recent T now l) : Recent T (now + 1) l :=
  ⟨h.1, fun n hn => Nat.le_succ_of_le (h.2 n hn)⟩

theorem recent_congr (T U : Key → Nat) (now : Nat) (l : List (Key × Bytes))
    (h : Recent T now l) (e : ∀ j, U j = T j) : Recent U now l := by
  have : U = T := funext e
  rw [this]
  exact h

theorem recent_apply (T : Key → Nat) (now : Nat) (c : LRU) (op : Op)
    (h : Recent T now c.order_) :
    Recent (fun j => if touches c j op then now + 1 else T j) (now + 1) (c.apply op).order_ := by
  cases op with
  | get k =>
    cases hf : find_node k c.order_ with
    | none =>
      have e : (c.apply (Op.get k)).order_ = c.order_ := by simp [LRU.apply, LRU.get, hf]
      rw [e]
      refine recent_congr T _ _ _ (recent_mono T now _ h) ?_
      intro j
      by_cases hj : k = j
      · subst hj
        simp [touches, hf]
      · simp [touches, hj]
    | some n =>
      have hn := find_node_some k c.order_ n hf
      have e : (c.apply (Op.get k)).order_ = (k, n.2) :: unlink k c.order_ := by
        simp [LRU.apply, LRU.get, hf]
        exact Prod.ext hn.1 rfl
      rw [e]
      have hr := recent_front T now k n.2 (unlink k c.order_)
        (recent_sublist T now _ _ h (unlink_sublist k c.order_))
        (recent_unlink_ne T k c.order_ h.1)
      refine recent_congr _ _ _ _ hr ?_
      intro j
      by_cases hj : k = j
      · subst hj
        simp [touches, hf]
      · have hj2 : ¬ j = k := fun e => hj e.symm
        simp [touches, hj, hj2]
  | put k v =>
    have hT : ∀ j, (if touches c j (Op.put k v) then now + 1 else T j)
        = (if j = k then now + 1 else T j) := by
      intro j
      by_cases hj : k = j
      · subst hj
        simp [touches]
      · have hj2 : ¬ j = k := fun e => hj e.symm
        simp [touches, hj, hj2]
    refine recent_congr _ _ _ _ ?_ hT
    cases hf : find_node k c.order_ with
    | some n =>
      have e : (c.apply (Op.put k v)).order_ = (k, v) :: unlink k c.order_ := by
        simp [LRU.apply, put_present c k v n hf]
      rw [e]
      exact recent_front T now k v (unlink k c.order_)
        (recent_sublist T now _ _ h (unlink_sublist k c.order_))
        (recent_unlink_ne T k c.order_ h.1)
    | none =>
      have hk : ∀ b ∈ c.order_, b.1 ≠ k := by
        intro b hb e
        exact (find_node_none_iff k c.order_).1 hf (List.mem_map.2 ⟨b, hb, e⟩)
      have hr := recent_front T now k v c.order_ h hk
      by_cases hc : ((k, v) :: c.order_).length > c.cap_
      · have e : (c.apply (Op.put k v)).order_ = ((k, v) :: c.order_).dropLast := by
          simp only [LRU.apply, LRU.put, hf]
          rw [if_pos hc]
        rw [e]
        exact recent_sublist _ _ _ _ hr (List.dropLast_sublist _)
      · have e : (c.apply (Op.put k v)).order_ = (k, v) :: c.order_ := by
          simp only [LRU.apply, LRU.put, hf]
          rw [if_neg hc]
        rw [e]
        exact hr
  | clear =>
    have e : (c.apply Op.clear).order_ = [] := rfl
    rw [e]
    exact ⟨List.Pairwise.nil, fun n hn => absurd hn (List.not_mem_nil n)⟩

theorem recent_run (ops : List Op) (c : LRU) (T : Key → Nat) (now : Nat)
    (h : Recent T now c.order_) :
    Recent (fun j => last_touch j c ops now (T j)) (now + ops.length) (c.run ops).order_ := by
  induction ops generalizing c T now with
  | nil => exact h
  | cons op ops ih =>
    have h1 := recent_apply T now c op h
    have h2 := ih (c.apply op) _ (now + 1) h1
    have e : now + (op :: ops).length = now + 1 + ops.length := by
      simp only [List.length_cons]
      omega
    rw [e]
    exact h2

theorem recent_touched_at (cap : Nat) (ops : List Op) :
    Recent (touched_at cap ops) ops.length ((LRU.new cap).run ops).order_ := by
  have h := recent_run ops (LRU.new cap) (fun _ => 0) 0
    ⟨List.Pairwise.nil, fun n hn => absurd hn (List.not_mem_nil n)⟩
  simpa [touched_at] using h

theorem put_absent_full (c : LRU) (k : Key) (v : Bytes) (hf : find_node k c.order_ = none)
    (hne : c.order_ ≠ []) (hfull : c.order_.length = c.cap_) :
    (c.put k v).order_ = (k, v) :: c.order_.dropLast := by
  have hc : ((k, v) :: c.order_).length > c.cap_ := by
    simp only [List.length_cons]
    omega
  simp only [LRU.put, hf]
  rw [if_pos hc]
  exact List.dropLast_cons_of_ne_nil hne

theorem find_node_append (j : Key) (l1 l2 : List (Key × Bytes)) :
    find_node j (l1 ++ l2) = (find_node j l1).orElse (fun _ => find_node j l2) := by
  induction l1 with
  | nil => simp [find_node]
  | cons m ms ih =>
    by_cases hm : m.1 = j
    · simp [find_node, hm]
    · simp [find_node, hm, ih]

/-- C4 (amended). Eviction: let `c` be the cache a history `ops` leaves, started empty with
capacity `cap >= 1`, holding exactly `cap` entries, and `k` a key it does not hold.  Then `put k v`
removes exactly one key, the `victim`, whose most recent touch (`put` or `get` hit) is older than
that of every other key held; every other key stays with its bytes, and `k` is held with `v`.
When `cap >= 2`, a key whose most recent touch (for instance a `get` hit) came after the most
recent touch of every other key held is still held after the `put`. -/
theorem lru_eviction (cap : Nat) (hcap : 1 ≤ cap) (ops : List Op) (k : Key) (v : Bytes)
    (hfull : ((LRU.new cap).run ops).size = cap)
    (habs : k ∉ ((LRU.new cap).run ops).keys) :
    ∃ victim, victim ∈ ((LRU.new cap).run ops).keys ∧
      (∀ j ∈ ((LRU.new cap).run ops).keys, j ≠ victim →
        touched_at cap ops victim < touched_at cap ops j) ∧
      (∀ j, j ∈ (((LRU.new cap).run ops).put k v).keys ↔
        (j = k ∨ (j ∈ ((LRU.new cap).run ops).keys ∧ j ≠ victim))) ∧
      (∀ j, j ≠ victim → j ≠ k →
        find_node j (((LRU.new cap).run ops).put k v).order_
          = find_node j ((LRU.new cap).run ops).order_) ∧
      find_node k (((LRU.new cap).run ops).put k v).order_ = some (k, v) ∧
      (∀ p, 2 ≤ cap → p ∈ ((LRU.new cap).run ops).keys →
        (∀ j ∈ ((LRU.new cap).run ops).keys, j ≠ p →
          touched_at cap ops j < touched_at cap ops p) →
        p ∈ (((LRU.new cap).run ops).put k v).keys) := by
  have hR := recent_touched_at cap ops
  have hcapc : ((LRU.new cap).run ops).cap_ = cap :=
    (run_size_le ops (LRU.new cap) (by simp [LRU.new, LRU.size])).2
  generalize (LRU.new cap).run ops = c at hfull habs hR hcapc
  generalize touched_at cap ops = T at hR
  simp only [LRU.size] at hfull
  simp only [LRU.keys] at habs ⊢
  have hne : c.order_ ≠ [] := by
    intro e
    rw [e] at hfull
    simp at hfull
    omega
  have hf : find_node k c.order_ = none := (find_node_none_iff k c.order_).2 habs
  have hput := put_absent_full c k v hf hne (hfull.trans hcapc.symm)
  have hsplit := List.dropLast_append_getLast hne
  have hpw : (c.order_.dropLast ++ [c.order_.getLast hne]).Pairwise
      (fun a b => T b.1 < T a.1) := by
    rw [hsplit]
    exact hR.1
  rw [List.pairwise_append] at hpw
  have hold : ∀ a ∈ c.order_.dropLast, T (c.order_.getLast hne).1 < T a.1 := by
    intro a ha
    exact hpw.2.2 a ha _ (List.mem_singleton_self _)
  have hmem : ∀ j, j ∈ c.order_.map Prod.fst ↔
      (j ∈ c.order_.dropLast.map Prod.fst ∨ j = (c.order_.getLast hne).1) := by
    intro j
    conv_lhs => rw [← hsplit]
    simp
  have hvict : (c.order_.getLast hne).1 ∉ c.order_.dropLast.map Prod.fst := by
    intro hin
    obtain ⟨a, ha, e⟩ := List.mem_map.1 hin
    have := hold a ha
    rw [e] at this
    exact lt_irrefl _ this
  have hkeys : ∀ j, j ∈ (c.put k v).order_.map Prod.fst ↔
      (j = k ∨ (j ∈ c.order_.map Prod.fst ∧ j ≠ (c.order_.getLast hne).1)) := by
    intro j
    rw [hput, hmem]
    simp only [List.map_cons, List.mem_cons]
    constructor
    · rintro (h | h)
      · exact Or.inl h
      · exact Or.inr ⟨Or.inl h, fun e => hvict (e ▸ h)⟩
    · rintro (h | ⟨h | h, h2⟩)
      · exact Or.inl h
      · exact Or.inr h
      · exact absurd h h2
  refine ⟨(c.order_.getLast hne).1, ?_, ?_, hkeys, ?_, ?_, ?_⟩
  · exact (hmem _).2 (Or.inr rfl)
  · intro j hj hjv
    rcases (hmem j).1 hj with h | h
    · obtain ⟨a, ha, e⟩ := List.mem_map.1 h
      rw [← e]
      exact hold a ha
    · exact absurd h hjv
  · intro j hjv hjk
    have hkj : ¬ k = j := fun e => hjk e.symm
    have hlj : ¬ (c.order_.getLast hne).1 = j := fun e => hjv e.symm
    rw [hput]
    conv_rhs => rw [← hsplit]
    rw [find_node_append]
    simp only [find_node, hkj, hlj, if_false]
    cases find_node j c.order_.dropLast <;> rfl
  · rw [hput]
    simp [find_node]
  · intro p h2 hp hlast
    refine (hkeys p).2 (Or.inr ⟨hp, ?_⟩)
    intro e
    have hlen : c.order_.dropLast.length = cap - 1 := by
      rw [List.length_dropLast, hfull]
    cases hd : c.order_.dropLast with
    | nil =>
      rw [hd] at hlen
      simp at hlen
      omega
    | cons a as =>
      have ha : a ∈ c.order_.dropLast := by
        rw [hd]
        exact List.mem_cons_self _ _
      have h1 := hold a ha
      have hain : a.1 ∈ c.order_.map Prod.fst :=
        (hmem a.1).2 (Or.inl (List.mem_map.2 ⟨a, ha, rfl⟩))
      have hap : a.1 ≠ p := by
        intro e2
        rw [e2, e] at h1
        exact lt_irrefl _ h1
      have h3 := hlast a.1 hain hap
      rw [e] at h3
      omega

/-- Instance of `lru_eviction`: capacity 2, keys `(0,4)` then `(4,4)` put, key `(8,4)` put next;
the hypotheses hold there. -/
theorem lru_eviction_witness :
    1 ≤ 2 ∧
    ((LRU.new 2).run [Op.put (Key.mk 0 4) ['a'], Op.put (Key.mk 4 4) ['b']]).size = 2 ∧
    Key.mk 8 4 ∉ ((LRU.new 2).run [Op.put (Key.mk 0 4) ['a'], Op.put (Key.mk 4 4) ['b']]).keys ∧
    ∃ victim,
      victim ∈ ((LRU.new 2).run [Op.put (Key.mk 0 4) ['a'], Op.put (Key.mk 4 4) ['b']]).keys ∧
      (∀ j ∈ ((LRU.new 2).run [Op.put (Key.mk 0 4) ['a'], Op.put (Key.mk 4 4) ['b']]).keys,
        j ≠ victim →
        touched_at 2 [Op.put (Key.mk 0 4) ['a'], Op.put (Key.mk 4 4) ['b']] victim
          < touched_at 2 [Op.put (Key.mk 0 4) ['a'], Op.put (Key.mk 4 4) ['b']] j) ∧
      (∀ j, j ∈ (((LRU.new 2).run [Op.put (Key.mk 0 4) ['a'], Op.put (Key.mk 4 4) ['b']]).put
            (Key.mk 8 4) ['c']).keys ↔
        (j = Key.mk 8 4 ∨
          (j ∈ ((LRU.new 2).run [Op.put (Key.mk 0 4) ['a'], Op.put (Key.mk 4 4) ['b']]).keys ∧
            j ≠ victim))) ∧
      (∀ j, j ≠ victim → j ≠ Key.mk 8 4 →
        find_node j (((LRU.new 2).run [Op.put (Key.mk 0 4) ['a'], Op.put (Key.mk 4 4) ['b']]).put
            (Key.mk 8 4) ['c']).order_
          = find_node j
            ((LRU.new 2).run [Op.put (Key.mk 0 4) ['a'], Op.put (Key.mk 4 4) ['b']]).order_) ∧
      find_node (Key.mk 8 4)
          (((LRU.new 2).run [Op.put (Key.mk 0 4) ['a'], Op.put (Key.mk 4 4) ['b']]).put
            (Key.mk 8 4) ['c']).order_ = some (Key.mk 8 4, ['c']) ∧
      (∀ p, 2 ≤ 2 →
        p ∈ ((LRU.new 2).run [Op.put (Key.mk 0 4) ['a'], Op.put (Key.mk 4 4) ['b']]).keys →
        (∀ j ∈ ((LRU.new 2).run [Op.put (Key.mk 0 4) ['a'], Op.put (Key.mk 4 4) ['b']]).keys,
          j ≠ p →
          touched_at 2 [Op.put (Key.mk 0 4) ['a'], Op.put (Key.mk 4 4) ['b']] j
            < touched_at 2 [Op.put (Key.mk 0 4) ['a'], Op.put (Key.mk 4 4) ['b']] p) →
        p ∈ (((LRU.new 2).run [Op.put (Key.mk 0 4) ['a'], Op.put (Key.mk 4 4) ['b']]).put
            (Key.mk 8 4) ['c']).keys) :=
  ⟨by decide, by decide, by decide,
    lru_eviction 2 (by decide) [Op.put (Key.mk 0 4) ['a'], Op.put (Key.mk 4 4) ['b']]
      (Key.mk 8 4) ['c'] (by decide) (by decide)⟩

/-- C4 as stated fails at capacity 1: the cache holds the one key `(0,4)`, whose last touch is a
`get` hit at time 2, after the last touch of every other key held (there is none); `put` of the
absent key `(4,4)` evicts it all the same. -/
theorem lru_eviction_cap_one_counterexample :
    1 ≤ 1 ∧
    ((LRU.new 1).run [Op.put (Key.mk 0 4) ['a'], Op.get (Key.mk 0 4)]).size = 1 ∧
    Key.mk 4 4 ∉ ((LRU.new 1).run [Op.put (Key.mk 0 4) ['a'], Op.get (Key.mk 0 4)]).keys ∧
    touches ((LRU.new 1).run [Op.put (Key.mk 0 4) ['a']]) (Key.mk 0 4) (Op.get (Key.mk 0 4))
      = true ∧
    touched_at 1 [Op.put (Key.mk 0 4) ['a'], Op.get (Key.mk 0 4)] (Key.mk 0 4) = 2 ∧
    (∀ j ∈ ((LRU.new 1).run [Op.put (Key.mk 0 4) ['a'], Op.get (Key.mk 0 4)]).keys,
      j ≠ Key.mk 0 4 →
      touched_at 1 [Op.put (Key.mk 0 4) ['a'], Op.get (Key.mk 0 4)] j
        < touched_at 1 [Op.put (Key.mk 0 4) ['a'], Op.get (Key.mk 0 4)] (Key.mk 0 4)) ∧
    Key.mk 0 4 ∉ (((LRU.new 1).run [Op.put (Key.mk 0 4) ['a'], Op.get (Key.mk 0 4)]).put
      (Key.mk 4 4) ['b']).keys := by
  decide

/-! ## Sessions at concrete inputs -/

/-- The scenario of `test_client.cpp`: OPEN photo, WRITE 0 4 with the bytes NETA, READ 0 4.  The
server replies `OK`, `OK 4`, and `OK 4` followed by NETA. -/
theorem test_client_scenario :
    handle_client 5 { data := [], trash := [] } []
        ["OPEN photo\n".toList, "WRITE 0 4\n".toList, "NETA".toList, "READ 0 4\n".toList]
      = Final.closed
          { disk := { data := [("store.bin".toList, []), ("photo".toList, "NETA".toList)],
                      trash := [] },
            g_fileCaches := [("photo".toList, LRU.mk [(Key.mk 0 4, "NETA".toList)] 128)],
            trace_id := [], current_name := "photo".toList, fd := none }
          "OK\nOK 4\nOK 4\nNETA".toList := by
  decide

/-- C1 at the failing input OPEN photo, WRITE 2147483648 4 with the bytes NETA,
READ 2147483648 4.  `(long)off` is `-2147483648`, `_lseek` rejects it, the write lands at the
file position `0` and the server replies `OK 4`; the READ of the same range fails to seek too,
reads at the file position `4`, the end of the file, and replies `OK 0` with no byte. -/
theorem read_after_write_at_2_pow_31 :
    handle_client 5 { data := [], trash := [] } []
        ["OPEN photo\n".toList, "WRITE 2147483648 4\n".toList, "NETA".toList,
          "READ 2147483648 4\n".toList]
      = Final.closed
          { disk := { data := [("store.bin".toList, []), ("photo".toList, "NETA".toList)],
                      trash := [] },
            g_fileCaches := [("photo".toList, LRU.mk [(Key.mk 2147483648 4, [])] 128)],
            trace_id := [], current_name := "photo".toList, fd := none }
          "OK\nOK 4\nOK 0\n".toList := by
  decide

/-- C2 at the failing input OPEN photo, WRITE 0 4 with the bytes NETA, READ 4294967296 4.
`(long)off` is `0`, so the READ returns the four bytes at offset `0`, while the file, four bytes
long, has no byte in the range that starts at offset `4294967296`. -/
theorem read_at_2_pow_32_returns_offset_0 :
    handle_client 5 { data := [], trash := [] } []
        ["OPEN photo\n".toList, "WRITE 0 4\n".toList, "NETA".toList,
          "READ 4294967296 4\n".toList]
      = Final.closed
          { disk := { data := [("store.bin".toList, []), ("photo".toList, "NETA".toList)],
                      trash := [] },
            g_fileCaches := [("photo".toList, LRU.mk [(Key.mk 4294967296 4, "NETA".toList)] 128)],
            trace_id := [], current_name := "photo".toList, fd := none }
          "OK\nOK 4\nOK 4\nNETA".toList ∧
    file_range "NETA".toList 4294967296 4 = [] := by
  decide

/-- C6 at the failing inputs: on `READ abc 4`, on `READ` and on `WRITE 0 x` the call of
`std::stoll` throws `std::invalid_argument`, which nothing catches: the process ends, no `ERR`
is sent and no further command is processed. -/
theorem malformed_number_terminates (st : State) (net : Transport) :
    handle_line st "READ abc 4".toList net = Outcome.terminated ∧
    handle_line st "READ".toList net = Outcome.terminated ∧
    handle_line st "WRITE 0 x".toList net = Outcome.terminated ∧
    (handle_client 5 { data := [], trash := [] } [] ["READ abc 4\nLIST\n".toList]).sent = [] :=
  ⟨rfl, rfl, rfl, by decide⟩

/-- C7 at the failing input `WRITE 0 -1`: `std::vector<char> tmp((size_t)len)` is asked for
`2^64 - 1` bytes and throws `std::length_error` before `do_write` can reject the length: the
process ends and no `ERR` is sent. -/
theorem negative_write_length_terminates (st : State) (net : Transport) :
    handle_line st "WRITE 0 -1".toList net = Outcome.terminated ∧
    (handle_client 5 { data := [], trash := [] } [] ["WRITE 0 -1\nLIST\n".toList]).sent = [] :=
  ⟨rfl, by decide⟩

/-- C8 at the failing input `DELETE nothing`, no file `nothing` in the data directory: the reply
is the three bytes `ERR`, without the line terminator, so the reply to the next command follows
it on the same line. -/
theorem delete_failure_reply_unterminated :
    handle_line
        { disk := { data := [("store.bin".toList, [])], trash := [] }, g_fileCaches := [],
          trace_id := [], current_name := DEFAULT_FN,
          fd := some { name := DEFAULT_FN, pos := 0 } }
        "DELETE nothing".toList []
      = Outcome.running
          { disk := { data := [("store.bin".toList, [])], trash := [] }, g_fileCaches := [],
            trace_id := [], current_name := DEFAULT_FN,
            fd := some { name := DEFAULT_FN, pos := 0 } }
          [] ['E', 'R', 'R'] ∧
    (handle_client 5 { data := [], trash := [] } [] ["DELETE nothing\nLIST\n".toList]).sent
      = "ERROK 0\n".toList := by
  decide

/-- C9 at the failing input: the data directory holds `photo` with the bytes `new`, the trash
holds `photo` with the bytes `old`; after `DELETE photo` (reply `OK`) the trash holds one file,
`photo` with the bytes `new`: the file that was in the trash is overwritten. -/
theorem delete_overwrites_trashed_file :
    handle_line
        { disk := { data := [("store.bin".toList, []), ("photo".toList, "new".toList)],
                    trash := [("photo".toList, "old".toList)] },
          g_fileCaches := [], trace_id := [], current_name := DEFAULT_FN,
          fd := some { name := DEFAULT_FN, pos := 0 } }
        "DELETE photo".toList []
      = Outcome.running
          { disk := { data := [("store.bin".toList, [])],
                      trash := [("photo".toList, "new".toList)] },
            g_fileCaches := [], trace_id := [], current_name := DEFAULT_FN,
            fd := some { name := DEFAULT_FN, pos := 0 } }
          [] "OK\n".toList := by
  decide

/-! ## Decimal digits -/

theorem digitChar_value (d : Nat) (h : d < 10) : (Nat.digitChar d).toNat - 48 = d := by
  interval_cases d <;> rfl

theorem digits_value_append (xs : Bytes) (c : Char) :
    digits_value (xs ++ [c]) = 10 * digits_value xs + (c.toNat - 48) := by
  simp [digits_value, List.foldl_append]

theorem toDigitsCore_append (fuel n : Nat) (ds : List Char) :
    Nat.toDigitsCore 10 fuel n ds = Nat.toDigitsCore 10 fuel n [] ++ ds := by
  induction fuel generalizing n ds with
  | zero => simp [Nat.toDigitsCore]
  | succ fuel ih =>
    simp only [Nat.toDigitsCore]
    by_cases h : n / 10 = 0
    · simp [h]
    · simp only [h, if_false]
      rw [ih (n / 10) (Nat.digitChar (n % 10) :: ds), ih (n / 10) [Nat.digitChar (n % 10)]]
      simp

theorem digits_value_toDigitsCore (fuel n : Nat) (h : n < fuel) :
    digits_value (Nat.toDigitsCore 10 fuel n []) = n := by
  induction fuel generalizing n with
  | zero => omega
  | succ fuel ih =>
    simp only [Nat.toDigitsCore]
    have hd := digitChar_value (n % 10) (Nat.mod_lt n (by decide))
    by_cases h0 : n / 10 = 0
    · simp only [h0, if_true]
      have e : digits_value [Nat.digitChar (n % 10)] = (Nat.digitChar (n % 10)).toNat - 48 := by
        simp [digits_value]
      rw [e, hd]
      omega
    · rw [if_neg h0, toDigitsCore_append, digits_value_append, hd, ih (n / 10) (by omega)]
      omega

theorem digits_value_to_string (n : Nat) : digits_value (to_string n) = n :=
  digits_value_toDigitsCore (n + 1) n (Nat.lt_succ_self n)

theorem to_string_injective (a b : Nat) (h : to_string a = to_string b) : a = b := by
  have := congrArg digits_value h
  rwa [digits_value_to_string, digits_value_to_string] at this

theorem numbered_injective (base ext : Name) (a b : Nat)
    (h : numbered base ext a = numbered base ext b) : a = b := by
  unfold numbered at h
  simp only [List.append_assoc] at h
  have h1 := List.append_cancel_left (List.append_cancel_left h)
  exact to_string_injective a b (List.append_cancel_right h1)

/-! ## Collision-safe names -/

theorem dir_exists_iff (n : Name) (d : Dir) : dir_exists n d = true ↔ n ∈ d.map Prod.fst := by
  induction d with
  | nil => simp [dir_exists, dir_find]
  | cons e es ih =>
    by_cases h : e.1 = n
    · simp [dir_exists, dir_find, h]
    · have h2 : ¬ n = e.1 := fun e2 => h e2.symm
      simp only [dir_exists, dir_find, h, if_false, List.map_cons, List.mem_cons, h2, false_or]
      exact ih

theorem dir_find_dir_set_self (n : Name) (c : Bytes) (d : Dir) :
    dir_find n (dir_set n c d) = some c := by
  induction d with
  | nil => simp [dir_set, dir_find]
  | cons e es ih =>
    by_cases h : e.1 = n
    · simp [dir_set, dir_find, h]
    · simp [dir_set, dir_find, h, ih]

theorem dir_find_dir_set_ne (f n : Name) (c : Bytes) (d : Dir) (h : f ≠ n) :
    dir_find f (dir_set n c d) = dir_find f d := by
  induction d with
  | nil =>
    have h2 : ¬ n = f := fun e => h e.symm
    simp [dir_set, dir_find, h2]
  | cons e es ih =>
    by_cases he : e.1 = n
    · have h2 : ¬ n = f := fun e => h e.symm
      have h3 : ¬ e.1 = f := fun e2 => h (e2.symm.trans he)
      simp [dir_set, dir_find, he, h2]
    · by_cases h3 : e.1 = f
      · have h4 : ¬ f = n := h
        simp [dir_set, dir_find, he, h3, h4]
      · simp [dir_set, dir_find, he, h3, ih]

theorem free_name_loop_numbered (dir : Dir) (base ext : Name) (j : Nat) :
    ∀ c fuel, j < fuel →
      (∀ i, i < j → dir_exists (numbered base ext (c + i)) dir = true) →
      dir_exists (numbered base ext (c + j)) dir = false →
      free_name_loop dir base ext fuel (c + 1) (numbered base ext c)
        = some (numbered base ext (c + j), c + j + 1) := by
  induction j with
  | zero =>
    intro c fuel hf _ hfree
    obtain ⟨f, rfl⟩ : ∃ f, fuel = f + 1 := ⟨fuel - 1, by omega⟩
    simp only [Nat.add_zero] at hfree ⊢
    simp [free_name_loop, hfree]
  | succ j ih =>
    intro c fuel hf hocc hfree
    obtain ⟨f, rfl⟩ : ∃ f, fuel = f + 1 := ⟨fuel - 1, by omega⟩
    have h0 : dir_exists (numbered base ext c) dir = true := by
      simpa using hocc 0 (Nat.succ_pos j)
    have e1 : c + (j + 1) = c + 1 + j := by omega
    simp only [free_name_loop, h0, if_true]
    rw [e1] at hfree ⊢
    refine ih (c + 1) f (by omega) ?_ hfree
    intro i hi
    have := hocc (i + 1) (by omega)
    have e2 : c + (i + 1) = c + 1 + i := by omega
    rwa [e2] at this

theorem free_candidate_exists (dir : Dir) (base ext : Name) :
    ∃ j, j ≤ dir.length ∧ dir_exists (numbered base ext (1 + j)) dir = false := by
  by_contra hcon
  have hall : ∀ j, j ≤ dir.length → dir_exists (numbered base ext (1 + j)) dir = true := by
    intro j hj
    by_contra hne
    exact hcon ⟨j, hj, by simpa using hne⟩
  have hinj : Function.Injective (fun j => numbered base ext (1 + j)) := by
    intro a b hab
    have := numbered_injective base ext (1 + a) (1 + b) hab
    omega
  have hnd : ((List.range (dir.length + 1)).map (fun j => numbered base ext (1 + j))).Nodup :=
    (List.nodup_range _).map hinj
  have hsub : (List.range (dir.length + 1)).map (fun j => numbered base ext (1 + j))
      ⊆ dir.map Prod.fst := by
    intro x hx
    obtain ⟨j, hj, rfl⟩ := List.mem_map.1 hx
    exact (dir_exists_iff _ dir).1 (hall j (by
      have := List.mem_range.1 hj
      omega))
  have hlen := (List.subperm_of_subset hnd hsub).length_le
  simp at hlen

theorem free_name_spec (dir : Dir) (name : Name) :
    ∃ dst counter, free_name dir name = some (dst, counter) ∧
      counter ≤ dir.length + 2 ∧ Chosen dir name dst := by
  by_cases hname : dir_exists name dir = true
  · have hex : ∃ j, dir_exists (numbered (stem name) (extension name) (1 + j)) dir = false := by
      obtain ⟨j, _, hj⟩ := free_candidate_exists dir (stem name) (extension name)
      exact ⟨j, hj⟩
    obtain ⟨j0, hj0le, hj0⟩ := free_candidate_exists dir (stem name) (extension name)
    have hspec := Nat.find_spec hex
    have hle : Nat.find hex ≤ dir.length := (Nat.find_le hj0).trans hj0le
    have hmin : ∀ i, i < Nat.find hex →
        dir_exists (numbered (stem name) (extension name) (1 + i)) dir = true := by
      intro i hi
      have := Nat.find_min hex hi
      simpa using this
    have hloop := free_name_loop_numbered dir (stem name) (extension name) (Nat.find hex) 1
      (dir.length + 1) (by omega) hmin hspec
    refine ⟨numbered (stem name) (extension name) (1 + Nat.find hex), 1 + Nat.find hex + 1,
      ?_, by omega, hspec, ?_, ?_⟩
    · simp only [free_name, free_name_loop, hname, if_true]
      exact hloop
    · intro h
      rw [h] at hname
      exact absurd hname (by simp)
    · intro _
      refine ⟨1 + Nat.find hex, by omega, rfl, ?_⟩
      intro i hi1 hi2
      have := hmin (i - 1) (by omega)
      have e : 1 + (i - 1) = i := by omega
      rwa [e] at this
  · have hfree : dir_exists name dir = false := by simpa using hname
    refine ⟨name, 1, ?_, by omega, hfree, fun _ => rfl, ?_⟩
    · simp [free_name, free_name_loop, hfree]
    · intro h
      exact absurd h hname

theorem fs_rename_keeps (held : Bool) (src : Dir) (name : Name) (dst : Dir) (dname : Name)
    (d : Dir × Dir) (hfree : dir_exists dname dst = false)
    (h : fs_rename held src name dst dname = some d) :
    (∀ f c, dir_find f dst = some c → dir_find f d.2 = some c) ∧
    dir_find name src ≠ none ∧ dir_find dname d.2 = dir_find name src := by
  unfold fs_rename at h
  cases held with
  | true => simp at h
  | false =>
    cases hsrc : dir_find name src with
    | none => simp [hsrc] at h
    | some content =>
      simp only [hsrc, Bool.false_eq_true, if_false, Option.some.injEq] at h
      subst h
      refine ⟨?_, by simp, dir_find_dir_set_self dname content dst⟩
      intro f c hf
      have hne : f ≠ dname := by
        intro e
        rw [e] at hf
        simp [dir_exists, hf] at hfree
      rw [dir_find_dir_set_ne f dname content dst hne]
      exact hf

/-- C10. Collision-safe naming of TRASH (destination directory: the trash) and RESTORE
(destination directory: the data directory), for every state and every name.  The search loop
ends with a destination `dst` (`free_name` is not `none`; the counter stays within the number of
files of the directory plus two); `dst` is `name` when `name` is free in the destination
directory and else `stem + " (n)" + extension` for the smallest `n >= 1` whose name is free;
`dst` did not exist before the move; the branch replies `ERR`, changing nothing, or `OK`, and
then the moved file is stored under `dst`; in both cases every file that was in the destination
directory is still there under its name with its contents. -/
theorem collision_safe_naming (st : State) (net : Transport) (name : Name) :
    (∃ dst counter st2 sent,
      free_name st.disk.trash name = some (dst, counter) ∧
      counter ≤ st.disk.trash.length + 2 ∧
      Chosen st.disk.trash name dst ∧
      cmd_TRASH st net name = Outcome.running st2 net sent ∧
      (∀ f c, dir_find f st.disk.trash = some c → dir_find f st2.disk.trash = some c) ∧
      ((sent = ERR ∧ st2 = st) ∨
        (sent = OK ∧ dir_find name st.disk.data ≠ none ∧
          dir_find dst st2.disk.trash = dir_find name st.disk.data))) ∧
    (∃ dst counter st2 sent,
      free_name st.disk.data name = some (dst, counter) ∧
      counter ≤ st.disk.data.length + 2 ∧
      Chosen st.disk.data name dst ∧
      cmd_RESTORE st net name = Outcome.running st2 net sent ∧
      (∀ f c, dir_find f st.disk.data = some c → dir_find f st2.disk.data = some c) ∧
      ((sent = ERR ∧ st2 = st) ∨
        (sent = OK ∧ dir_find name st.disk.trash ≠ none ∧
          dir_find dst st2.disk.data = dir_find name st.disk.trash))) := by
  constructor
  · obtain ⟨dst, counter, hfn, hc, hch⟩ := free_name_spec st.disk.trash name
    cases hr : fs_rename (holds st.fd name) st.disk.data name st.disk.trash dst with
    | none =>
      refine ⟨dst, counter, st, ERR, hfn, hc, hch, ?_, fun _ _ h => h, Or.inl ⟨rfl, rfl⟩⟩
      simp [cmd_TRASH, hfn, hr]
    | some d =>
      have hk := fs_rename_keeps _ _ _ _ _ d hch.1 hr
      refine ⟨dst, counter, { st with disk := { data := d.1, trash := d.2 } }, OK, hfn, hc, hch,
        ?_, hk.1, Or.inr ⟨rfl, hk.2.1, hk.2.2⟩⟩
      simp [cmd_TRASH, hfn, hr]
  · obtain ⟨dst, counter, hfn, hc, hch⟩ := free_name_spec st.disk.data name
    cases hr : fs_rename false st.disk.trash name st.disk.data dst with
    | none =>
      refine ⟨dst, counter, st, ERR, hfn, hc, hch, ?_, fun _ _ h => h, Or.inl ⟨rfl, rfl⟩⟩
      simp [cmd_RESTORE, hfn, hr]
    | some d =>
      have hk := fs_rename_keeps _ _ _ _ _ d hch.1 hr
      refine ⟨dst, counter, { st with disk := { data := d.2, trash := d.1 } }, OK, hfn, hc, hch,
        ?_, hk.1, Or.inr ⟨rfl, hk.2.1, hk.2.2⟩⟩
      simp [cmd_RESTORE, hfn, hr]

/-! ## Reads and writes whose offsets fit a `long` -/

theorem to_long_fits (x : Int) (h : fits_long x) : to_long x = x := by
  unfold fits_long at h
  unfold to_long
  norm_num at h ⊢
  omega

theorem to_unsigned_fits (x : Int) (h : fits_long x) : to_unsigned x = x.toNat := by
  unfold fits_long at h
  unfold to_unsigned
  norm_num at h ⊢
  have : x % 4294967296 = x := Int.emod_eq_of_lt h.1 (by omega)
  rw [this]

theorem to_size_t_fits (x : Int) (h : fits_long x) : to_size_t x = x.toNat := by
  unfold fits_long at h
  unfold to_size_t
  norm_num at h ⊢
  have : x % 18446744073709551616 = x := Int.emod_eq_of_lt h.1 (by omega)
  rw [this]

theorem toNat_le_INT_MAX (x : Int) (h : fits_long x) : x.toNat ≤ INT_MAX := by
  unfold fits_long at h
  unfold INT_MAX
  norm_num at h ⊢
  omega

theorem reg_find_reg_set_self (n : Name) (c : LRU) (r : Registry) :
    reg_find n (reg_set n c r) = some c := by
  induction r with
  | nil => simp [reg_set, reg_find]
  | cons e es ih =>
    by_cases h : e.1 = n
    · simp [reg_set, reg_find, h]
    · simp [reg_set, reg_find, h, ih]

theorem reg_find_reg_set_ne (f n : Name) (c : LRU) (r : Registry) (h : f ≠ n) :
    reg_find f (reg_set n c r) = reg_find f r := by
  have h2 : ¬ n = f := fun e => h e.symm
  have h4 : ¬ f = n := h
  induction r with
  | nil => simp [reg_set, reg_find, h2]
  | cons e es ih =>
    by_cases he : e.1 = n
    · simp [reg_set, reg_find, he, h2]
    · by_cases h3 : e.1 = f
      · simp [reg_set, reg_find, he, h3, h4]
      · simp [reg_set, reg_find, he, h3, ih]

theorem get_some_node (c : LRU) (k : Key) (out : Bytes) (h : (c.get k).2 = some out) :
    (k, out) ∈ c.order_ ∧ ∀ m ∈ (c.get k).1.order_, m ∈ c.order_ := by
  unfold LRU.get at h ⊢
  cases hf : find_node k c.order_ with
  | none => simp [hf] at h
  | some n =>
    have hn := find_node_some k c.order_ n hf
    simp only [hf, Option.some.injEq] at h
    refine ⟨?_, ?_⟩
    · have e : (k, out) = n := Prod.ext hn.1.symm h.symm
      rw [e]
      exact hn.2
    · intro m hm
      rcases List.mem_cons.1 hm with rfl | hm
      · exact hn.2
      · exact (unlink_sublist k c.order_).subset hm

theorem get_none_same (c : LRU) (k : Key) (h : (c.get k).2 = none) : (c.get k).1 = c := by
  unfold LRU.get at h ⊢
  cases hf : find_node k c.order_ with
  | none => rfl
  | some n => simp [hf] at h

theorem put_nodes (c : LRU) (k : Key) (v : Bytes) :
    ∀ m ∈ (c.put k v).order_, m = (k, v) ∨ m ∈ c.order_ := by
  intro m hm
  unfold LRU.put at hm
  cases hf : find_node k c.order_ with
  | some n =>
    simp only [hf] at hm
    rcases List.mem_cons.1 hm with rfl | hm
    · exact Or.inl rfl
    · exact Or.inr ((unlink_sublist k c.order_).subset hm)
  | none =>
    simp only [hf] at hm
    by_cases hc : ((k, v) :: c.order_).length > c.cap_
    · rw [if_pos hc] at hm
      exact List.mem_cons.1 ((List.dropLast_sublist _).subset hm)
    · rw [if_neg hc] at hm
      exact List.mem_cons.1 hm

theorem file_range_write_at (content : Bytes) (off : Nat) (bytes : Bytes) :
    file_range (write_at content off bytes) off bytes.length = bytes := by
  unfold file_range write_at
  have hlen : (content.take off ++ List.replicate (off - content.length) (Char.ofNat 0)).length
      = off := by
    simp only [List.length_append, List.length_take, List.length_replicate]
    omega
  rw [List.append_assoc (content.take off ++ List.replicate (off - content.length) (Char.ofNat 0))]
  rw [List.drop_append_of_le_length (by omega)]
  rw [List.drop_of_length_le (by omega)]
  simp

theorem cache_for_find (reg : Registry) (name : Name) :
    reg_find name (cache_for reg name).1 = some (cache_for reg name).2 := by
  unfold cache_for
  cases h : reg_find name reg with
  | some c => simpa using h
  | none => simpa using reg_find_reg_set_self name (LRU.new 128) reg

theorem cache_for_find_ne (reg : Registry) (f name : Name) (h : f ≠ name) :
    reg_find f (cache_for reg name).1 = reg_find f reg := by
  unfold cache_for
  cases hn : reg_find name reg with
  | some c => rfl
  | none => simpa using reg_find_reg_set_ne f name (LRU.new 128) reg h

theorem cache_for_ok (data : Dir) (reg : Registry) (name : Name) (content : Bytes)
    (hcont : dir_find name data = some content)
    (h3 : ∀ f lru, reg_find f reg = some lru → CacheOk data f lru) :
    CacheOk data name (cache_for reg name).2 := by
  unfold cache_for
  cases hn : reg_find name reg with
  | some c => exact h3 name c hn
  | none => exact ⟨content, hcont, by simp [LRU.new]⟩

theorem do_read_coherent (st : State) (off len : Int) (content : Bytes)
    (hc : Coherent st) (ho : fits_long off) (hl : fits_long len)
    (hcont : dir_find st.current_name st.disk.data = some content) :
    (do_read st st.current_name off len).2 = some (file_range content off.toNat len.toNat) ∧
    Coherent (do_read st st.current_name off len).1 ∧
    (do_read st st.current_name off len).1.disk = st.disk ∧
    (do_read st st.current_name off len).1.current_name = st.current_name := by
  obtain ⟨⟨o, hfd, hname⟩, h2, h3⟩ := hc
  have hneg : ¬ (off < 0 ∨ len < 0) := by
    unfold fits_long at ho hl
    omega
  have hok := cache_for_ok st.disk.data st.g_fileCaches st.current_name content hcont h3
  obtain ⟨content2, hcont2, hnodes⟩ := hok
  have hce : content2 = content := by
    rw [hcont] at hcont2
    exact (Option.some.inj hcont2).symm
  subst hce
  have hI3 : ∀ (lru2 : LRU), (∀ m ∈ lru2.order_, fits_long m.1.off ∧ fits_long m.1.len ∧
        m.2 = file_range content2 m.1.off.toNat m.1.len.toNat) →
      ∀ f lru, reg_find f (reg_set st.current_name lru2 (cache_for st.g_fileCaches
        st.current_name).1) = some lru → CacheOk st.disk.data f lru := by
    intro lru2 hl2 f lru hf
    by_cases hfn : f = st.current_name
    · subst hfn
      rw [reg_find_reg_set_self] at hf
      have e := Option.some.inj hf
      subst e
      exact ⟨content2, hcont, hl2⟩
    · rw [reg_find_reg_set_ne f _ _ _ hfn, cache_for_find_ne _ f _ hfn] at hf
      exact h3 f lru hf
  unfold do_read
  rw [if_neg hneg]
  dsimp only
  cases hg : ((cache_for st.g_fileCaches st.current_name).2.get (Key.mk off len)).2 with
  | some out =>
    have hnode := get_some_node _ _ out hg
    have hval := hnodes _ hnode.1
    dsimp only
    refine ⟨?_, ⟨⟨o, hfd, hname⟩, h2, ?_⟩, rfl, rfl⟩
    · exact congrArg some hval.2.2
    · exact hI3 _ (fun m hm => hnodes m (hnode.2 m hm))
  | none =>
    have hseek : _lseek st.fd (to_long off) = some { o with pos := off.toNat } := by
      have hoff : ¬ off < 0 := fun h => hneg (Or.inl h)
      simp [_lseek, hfd, to_long_fits off ho, hoff]
    have hcount : ¬ to_unsigned len > INT_MAX := by
      rw [to_unsigned_fits len hl]
      exact Nat.not_lt.2 (toNat_le_INT_MAX len hl)
    have hread : _read st.disk.data (_lseek st.fd (to_long off)) (to_unsigned len)
        = (some { name := o.name, pos := off.toNat + (file_range content2 off.toNat
            len.toNat).length },
          ((file_range content2 off.toNat len.toNat).length : Int),
          file_range content2 off.toNat len.toNat) := by
      rw [hseek]
      simp only [_read, if_neg hcount, hname, hcont]
      rw [to_unsigned_fits len hl]
      rfl
    dsimp only
    rw [hread]
    have hnn : ¬ (((file_range content2 off.toNat len.toNat).length : Int) < 0) := by omega
    dsimp only
    rw [if_neg hnn]
    refine ⟨rfl, ⟨⟨_, rfl, hname⟩, h2, ?_⟩, rfl, rfl⟩
    refine hI3 _ ?_
    intro m hm
    rcases put_nodes _ _ _ m hm with rfl | hm
    · exact ⟨ho, hl, rfl⟩
    · exact hnodes m hm

theorem cache_ok_dir_set (data : Dir) (f name : Name) (c : Bytes) (lru : LRU) (h : f ≠ name)
    (hok : CacheOk data f lru) : CacheOk (dir_set name c data) f lru := by
  obtain ⟨content, hcont, hn⟩ := hok
  exact ⟨content, by rw [dir_find_dir_set_ne f name c data h]; exact hcont, hn⟩

theorem do_write_coherent (st : State) (off : Int) (payload content : Bytes)
    (hc : Coherent st) (ho : fits_long off) (hl : fits_long (payload.length : Int))
    (hcont : dir_find st.current_name st.disk.data = some content) :
    (do_write st st.current_name off payload (payload.length : Int)).2 = true ∧
    Coherent (do_write st st.current_name off payload (payload.length : Int)).1 ∧
    (do_write st st.current_name off payload (payload.length : Int)).1.current_name
      = st.current_name ∧
    (do_write st st.current_name off payload (payload.length : Int)).1.disk.data
      = (if payload = [] then st.disk.data
         else dir_set st.current_name (write_at content off.toNat payload) st.disk.data) := by
  obtain ⟨⟨o, hfd, hname⟩, h2, h3⟩ := hc
  have hneg : ¬ (off < 0 ∨ (payload.length : Int) < 0) := by
    unfold fits_long at ho
    omega
  have hseek : _lseek st.fd (to_long off) = some { o with pos := off.toNat } := by
    have hoff : ¬ off < 0 := fun h => hneg (Or.inl h)
    simp [_lseek, hfd, to_long_fits off ho, hoff]
  have hcount : to_unsigned (payload.length : Int) = payload.length := by
    rw [to_unsigned_fits _ hl]
    exact Int.toNat_ofNat _
  have hreg : ∀ (data2 : Dir) (content2 : Bytes),
      dir_find st.current_name data2 = some content2 →
      (∀ f lru, f ≠ st.current_name → CacheOk st.disk.data f lru → CacheOk data2 f lru) →
      ∀ f lru,
        reg_find f (match reg_find st.current_name st.g_fileCaches with
          | some c => reg_set st.current_name c.clear st.g_fileCaches
          | none => st.g_fileCaches) = some lru → CacheOk data2 f lru := by
    intro data2 content2 hd2 hkeep f lru hf
    by_cases hfn : f = st.current_name
    · subst hfn
      cases hcur : reg_find st.current_name st.g_fileCaches with
      | none =>
        rw [hcur] at hf
        dsimp only at hf
        rw [hcur] at hf
        exact absurd hf (by simp)
      | some c =>
        rw [hcur] at hf
        dsimp only at hf
        rw [reg_find_reg_set_self] at hf
        have e := Option.some.inj hf
        subst e
        exact ⟨content2, hd2, by simp [LRU.clear]⟩
    · have hsame : reg_find f (match reg_find st.current_name st.g_fileCaches with
          | some c => reg_set st.current_name c.clear st.g_fileCaches
          | none => st.g_fileCaches) = reg_find f st.g_fileCaches := by
        cases hcur : reg_find st.current_name st.g_fileCaches with
        | none => rfl
        | some c => exact reg_find_reg_set_ne f _ _ _ hfn
      rw [hsame] at hf
      exact hkeep f lru hfn (h3 f lru hf)
  unfold do_write
  rw [if_neg hneg]
  dsimp only
  rw [hseek, hcount]
  by_cases hp : payload = []
  · subst hp
    simp only [_write, List.length_nil, if_true]
    refine ⟨by simp, ⟨⟨_, rfl, hname⟩, ⟨content, hcont⟩, ?_⟩, by trivial, by trivial⟩
    exact hreg st.disk.data content hcont (fun _ _ _ h => h)
  · have hlen : ¬ payload.length = 0 := fun h => hp (List.length_eq_zero.1 h)
    have htl : to_long ((payload.length : Nat) : Int) = (payload.length : Int) :=
      to_long_fits _ hl
    simp only [_write, if_neg hlen, hname, hcont, List.take_length, htl, if_neg hp]
    refine ⟨by simp, ⟨⟨_, rfl, rfl⟩, ⟨_, dir_find_dir_set_self _ _ _⟩, ?_⟩, by trivial,
      by trivial⟩
    exact hreg _ _ (dir_find_dir_set_self _ _ _)
      (fun f lru hfn h => cache_ok_dir_set _ f _ _ lru hfn h)

theorem recv_n_one_segment (payload : Bytes) (hl : fits_long (payload.length : Int)) :
    ∃ net2, recv_n [payload] (to_long (payload.length : Int)) = some (payload, net2) := by
  rw [to_long_fits _ hl]
  unfold recv_n
  rw [Int.toNat_ofNat]
  cases payload with
  | nil => exact ⟨[[]], by simp [recv_n_loop]⟩
  | cons c cs => exact ⟨[], by simp [recv_n_loop]⟩

theorem cmd_OPEN_coherent (st : State) (name : Name) (hc : Coherent st) :
    ∃ st2, cmd_OPEN st [] name = Outcome.running st2 [] OK ∧ Coherent st2 ∧
      st2.current_name = name ∧
      st2.disk.data = (if dir_exists name st.disk.data then st.disk.data
                       else dir_set name [] st.disk.data) := by
  obtain ⟨_, _, h3⟩ := hc
  refine ⟨_, rfl, ?_, rfl, ?_⟩
  · cases hd : dir_find name st.disk.data with
    | some content =>
      refine ⟨⟨{ name := name, pos := 0 }, by simp [open_rw_create, hd], rfl⟩,
        ⟨content, by simp [open_rw_create, hd]⟩, ?_⟩
      intro f lru hf
      have hdata : (open_rw_create st.disk.data name).1 = st.disk.data := by
        simp [open_rw_create, hd]
      dsimp only at hf ⊢
      rw [hdata]
      by_cases hfn : f = name
      · subst hfn
        rw [cache_for_find] at hf
        have e := Option.some.inj hf
        rw [← e]
        exact cache_for_ok st.disk.data st.g_fileCaches f content hd h3
      · rw [cache_for_find_ne _ f name hfn] at hf
        exact h3 f lru hf
    | none =>
      have hdata : (open_rw_create st.disk.data name).1 = dir_set name [] st.disk.data := by
        simp [open_rw_create, hd]
      have hnew : dir_find name (dir_set name [] st.disk.data) = some [] :=
        dir_find_dir_set_self name [] st.disk.data
      have hkeep : ∀ f lru, reg_find f st.g_fileCaches = some lru →
          CacheOk (dir_set name [] st.disk.data) f lru := by
        intro f lru hf
        have hok := h3 f lru hf
        have hfn : f ≠ name := by
          intro e
          obtain ⟨c, hc2, _⟩ := hok
          rw [e, hd] at hc2
          exact absurd hc2 (by simp)
        exact cache_ok_dir_set _ f name [] lru hfn hok
      refine ⟨⟨{ name := name, pos := 0 }, by simp [open_rw_create, hd], rfl⟩,
        ⟨[], by simp [open_rw_create, hd, hnew]⟩, ?_⟩
      intro f lru hf
      dsimp only at hf ⊢
      rw [hdata]
      by_cases hfn : f = name
      · subst hfn
        rw [cache_for_find] at hf
        have e := Option.some.inj hf
        rw [← e]
        exact cache_for_ok _ st.g_fileCaches f [] hnew hkeep
      · rw [cache_for_find_ne _ f name hfn] at hf
        exact hkeep f lru hf
  · cases hd : dir_find name st.disk.data with
    | some content => simp [open_rw_create, hd, dir_exists]
    | none => simp [open_rw_create, hd, dir_exists]

theorem exec_refines (st : State) (c : Cmd) (hc : Coherent st) (hf : c.fits) :
    ∃ st2 net2,
      exec st c = Outcome.running st2 net2
        ((Store.exec { data := st.disk.data, active := st.current_name } c).2) ∧
      Coherent st2 ∧
      st2.disk.data = (Store.exec { data := st.disk.data, active := st.current_name } c).1.data ∧
      st2.current_name
        = (Store.exec { data := st.disk.data, active := st.current_name } c).1.active := by
  obtain ⟨content, hcont⟩ := hc.2.1
  have hsc : Store.content { data := st.disk.data, active := st.current_name } = content := by
    simp [Store.content, hcont]
  cases c with
  | «open» name =>
    obtain ⟨st2, h1, h2, h3, h4⟩ := cmd_OPEN_coherent st name hc
    exact ⟨st2, [], h1, h2, h4, h3⟩
  | read off len =>
    obtain ⟨h1, h2, h3, h4⟩ := do_read_coherent st off len content hc hf.1 hf.2 hcont
    refine ⟨_, [], ?_, h2, by rw [h3]; rfl, h4⟩
    simp only [exec, cmd_READ, h1, Store.exec, hsc]
  | write off payload =>
    obtain ⟨h1, h2, h3, h4⟩ := do_write_coherent st off payload content hc hf.1 hf.2 hcont
    obtain ⟨net2, hrecv⟩ := recv_n_one_segment payload hf.2
    have hsz : ¬ to_size_t (payload.length : Int) > vector_max_size := by
      rw [to_size_t_fits _ hf.2, Int.toNat_ofNat]
      have := toNat_le_INT_MAX _ hf.2
      rw [Int.toNat_ofNat] at this
      unfold INT_MAX at this
      unfold vector_max_size
      omega
    have htmp : payload ++ List.replicate (to_size_t (payload.length : Int) - payload.length)
        (Char.ofNat 0) = payload := by
      rw [to_size_t_fits _ hf.2, Int.toNat_ofNat]
      simp
    have hstr : to_string_ll (payload.length : Int) = to_string payload.length := by
      have : ¬ ((payload.length : Int) < 0) := by omega
      simp [to_string_ll, this]
    refine ⟨_, net2, ?_, h2, by rw [h4]; simp [Store.exec, hsc], h3⟩
    simp only [exec, cmd_WRITE, if_neg hsz, hrecv, htmp, h1, if_true, hstr, Store.exec]

/-- The state in which `handle_client` enters its command loop on a server that has no cache yet
is coherent, whatever the disk holds. -/
theorem initial_coherent (disk : Disk) (trace : Bytes) :
    Coherent
      { disk := { disk with data := (open_rw_create disk.data DEFAULT_FN).1 },
        g_fileCaches := [], trace_id := trace, current_name := DEFAULT_FN,
        fd := (open_rw_create disk.data DEFAULT_FN).2 } := by
  cases hd : dir_find DEFAULT_FN disk.data with
  | some content =>
    refine ⟨⟨{ name := DEFAULT_FN, pos := 0 }, by simp [open_rw_create, hd], rfl⟩,
      ⟨content, by simp [open_rw_create, hd]⟩, ?_⟩
    intro f lru hf
    simp [reg_find] at hf
  | none =>
    refine ⟨⟨{ name := DEFAULT_FN, pos := 0 }, by simp [open_rw_create, hd], rfl⟩,
      ⟨[], by simp [open_rw_create, hd, dir_find_dir_set_self]⟩, ?_⟩
    intro f lru hf
    simp [reg_find] at hf

/-- Within the range of a 32-bit `long` the cache is transparent (the part of C2 the code keeps):
from a coherent state, a session of OPEN, READ and WRITE commands whose offsets and lengths all
satisfy `0 <= x < 2^31` never ends the process and replies to every command what the file store
without a cache replies; in particular every READ replies the bytes the active file has in
`[off, min(off + len, size))` at that moment. -/
theorem replies_refine (cmds : List Cmd) (st : State) (hc : Coherent st)
    (hf : ∀ c ∈ cmds, c.fits) :
    ∃ st2,
      replies st cmds
        = some ((Store.replies { data := st.disk.data, active := st.current_name } cmds).1,
            st2) ∧
      Coherent st2 ∧
      st2.disk.data
        = (Store.replies { data := st.disk.data, active := st.current_name } cmds).2.data ∧
      st2.current_name
        = (Store.replies { data := st.disk.data, active := st.current_name } cmds).2.active := by
  induction cmds generalizing st with
  | nil => exact ⟨st, rfl, hc, rfl, rfl⟩
  | cons c cs ih =>
    obtain ⟨st1, net1, h1, hc1, hd1, hn1⟩ :=
      exec_refines st c hc (hf c (List.mem_cons_self _ _))
    obtain ⟨st2, h2, hc2, hd2, hn2⟩ := ih st1 hc1 (fun d hd => hf d (List.mem_cons_of_mem _ hd))
    have hs : (Store.exec { data := st.disk.data, active := st.current_name } c).1
        = { data := st1.disk.data, active := st1.current_name } := by
      rw [hd1, hn1]
    refine ⟨st2, ?_, hc2, ?_, ?_⟩
    · simp only [replies, h1, h2, Store.replies, hs]
    · simp only [Store.replies, hs]
      exact hd2
    · simp only [Store.replies, hs]
      exact hn2

theorem store_replies_append (s : Store) (a b : List Cmd) :
    (s.replies (a ++ b)).1 = (s.replies a).1 ++ ((s.replies a).2.replies b).1 := by
  induction a generalizing s with
  | nil => simp [Store.replies]
  | cons c cs ih => simp [Store.replies, ih]

theorem store_replies_reads (s : Store) (reads : List (Int × Int)) :
    (s.replies (reads.map (fun r => Cmd.read r.1 r.2))).2 = s := by
  induction reads generalizing s with
  | nil => rfl
  | cons r rs ih =>
    simp only [List.map_cons, Store.replies, Store.exec]
    exact ih s

theorem store_read_after_write (s : Store) (content : Bytes) (off : Int) (payload : Bytes)
    (hcont : dir_find s.active s.data = some content) :
    ((s.exec (Cmd.write off payload)).1.exec (Cmd.read off (payload.length : Int))).2
      = OK_n (to_string payload.length) ++ payload := by
  have hr : file_range (Store.content (s.exec (Cmd.write off payload)).1) off.toNat
      (payload.length : Int).toNat = payload := by
    rw [Int.toNat_ofNat]
    by_cases hp : payload = []
    · subst hp
      simp [file_range]
    · have : Store.content (s.exec (Cmd.write off payload)).1
          = write_at content off.toNat payload := by
        simp [Store.exec, Store.content, hp, hcont, dir_find_dir_set_self]
      rw [this]
      exact file_range_write_at content off.toNat payload
  simp only [Store.exec] at hr ⊢
  rw [hr]

/-- Within the range of a 32-bit `long` a READ returns what was written (the part of C1 the code
keeps): from a coherent state, whatever its caches hold from earlier READs, after a WRITE of
`payload` at `off` with `0 <= off < 2^31` and any READs with offsets and lengths in that range,
the WRITE having replied `OK len`, READ `off len` replies `OK len` followed by `payload`. -/
theorem read_after_write_in_range (st : State) (hc : Coherent st) (off : Int) (payload : Bytes)
    (reads : List (Int × Int)) (ho : fits_long off) (hl : fits_long (payload.length : Int))
    (hr : ∀ r ∈ reads, fits_long r.1 ∧ fits_long r.2) :
    ∃ rs st2,
      replies st (Cmd.write off payload :: (reads.map (fun r => Cmd.read r.1 r.2)
          ++ [Cmd.read off (payload.length : Int)])) = some (rs, st2) ∧
      rs.head? = some (OK_n (to_string payload.length)) ∧
      rs.getLast? = some (OK_n (to_string payload.length) ++ payload) := by
  have hfits : ∀ c ∈ Cmd.write off payload :: (reads.map (fun r => Cmd.read r.1 r.2)
      ++ [Cmd.read off (payload.length : Int)]), c.fits := by
    intro c hcm
    rcases List.mem_cons.1 hcm with rfl | hcm
    · exact ⟨ho, hl⟩
    · rcases List.mem_append.1 hcm with hcm | hcm
      · obtain ⟨r, hrm, rfl⟩ := List.mem_map.1 hcm
        exact hr r hrm
      · rw [List.mem_singleton.1 hcm]
        exact ⟨ho, hl⟩
  obtain ⟨st2, h1, _, _, _⟩ := replies_refine _ st hc hfits
  obtain ⟨content, hcont⟩ := hc.2.1
  refine ⟨_, st2, h1, ?_, ?_⟩
  · simp [Store.replies, Store.exec]
  · simp only [Store.replies, store_replies_append, store_replies_reads]
    rw [← List.cons_append, List.getLast?_concat]
    exact congrArg some
      (store_read_after_write { data := st.disk.data, active := st.current_name } content off
        payload hcont)

/-! ## Negative arguments -/

/-- READ with a negative offset or length (the part of C7 the code keeps): the reply is `ERR`
and the state, files and caches included, is as before. -/
theorem negative_read_rejected (st : State) (net : Transport) (off len : Int)
    (h : off < 0 ∨ len < 0) : cmd_READ st net off len = Outcome.running st net ERR := by
  simp [cmd_READ, do_read, h]

/-- WRITE with a negative offset and a length `0 <= len < 2^31` whose payload has arrived (the
part of C7 the code keeps): the payload is consumed, the reply is `ERR` and the state is as
before. -/
theorem negative_write_offset_rejected (st : State) (net net2 : Transport) (off len : Int)
    (payload : Bytes) (ho : off < 0) (hl : fits_long len)
    (hrecv : recv_n net len = some (payload, net2)) :
    cmd_WRITE st net off len = Outcome.running st net2 ERR := by
  have hsz : ¬ to_size_t len > vector_max_size := by
    rw [to_size_t_fits len hl]
    have := toNat_le_INT_MAX len hl
    unfold INT_MAX at this
    unfold vector_max_size
    omega
  simp [cmd_WRITE, if_neg hsz, to_long_fits len hl, hrecv, do_write, ho]

/-- Every negative `long long` length ends the process in the WRITE branch: the buffer size
`(size_t)len` is at least `2^63`, above `max_size`. -/
theorem negative_write_length_throws (st : State) (net : Transport) (off len : Int)
    (hneg : len < 0) (hmin : - 2 ^ 63 ≤ len) :
    cmd_WRITE st net off len = Outcome.terminated := by
  have hsz : to_size_t len > vector_max_size := by
    unfold to_size_t vector_max_size
    norm_num at hmin ⊢
    have e : len % 18446744073709551616 = len + 18446744073709551616 := by omega
    rw [e]
    omega
  simp [cmd_WRITE, hsz]

/-- The TRASH and RESTORE naming on an example: with `a.txt` and `a (1).txt` taken, the
destination chosen for `a.txt` is `a (2).txt`; a free name is kept. -/
theorem free_name_example :
    free_name [("a.txt".toList, []), ("a (1).txt".toList, [])] "a.txt".toList
      = some ("a (2).txt".toList, 3) ∧
    free_name [("a.txt".toList, [])] "b.txt".toList = some ("b.txt".toList, 1) := by
  decide

/-! ## Framing of the replies -/

theorem framed_OK_n_payload (payload : Bytes) :
    Framed (OK_n (to_string payload.length) ++ payload) :=
  Or.inr (Or.inr ⟨payload.length, payload, rfl, Or.inr rfl⟩)

theorem framed_OK_n_ll (x : Int) (h : ¬ x < 0) : Framed (OK_n (to_string_ll x)) :=
  Or.inr (Or.inr ⟨x.natAbs, [], by simp [to_string_ll, h], Or.inl rfl⟩)

theorem cmd_READ_framed (st st2 : State) (net net2 : Transport) (off len : Int) (sent : Bytes)
    (h : cmd_READ st net off len = Outcome.running st2 net2 sent) : Framed sent := by
  unfold cmd_READ at h
  split at h
  · simp only [Outcome.running.injEq] at h
    exact Or.inr (Or.inl h.2.2.symm)
  · simp only [Outcome.running.injEq] at h
    rw [← h.2.2]
    exact framed_OK_n_payload _

theorem cmd_WRITE_framed (st st2 : State) (net net2 : Transport) (off len : Int) (sent : Bytes)
    (h : cmd_WRITE st net off len = Outcome.running st2 net2 sent) : Framed sent := by
  unfold cmd_WRITE at h
  split at h
  · simp at h
  · split at h
    · simp only [Outcome.running.injEq] at h
      exact Or.inr (Or.inl h.2.2.symm)
    · dsimp only at h
      split at h
      · rename_i hw
        simp only [Outcome.running.injEq] at h
        rw [← h.2.2]
        refine framed_OK_n_ll len ?_
        intro hneg
        simp [do_write, hneg] at hw
      · simp only [Outcome.running.injEq] at h
        exact Or.inr (Or.inl h.2.2.symm)

theorem cmd_DELETE_framed (st st2 : State) (net net2 : Transport) (name : Name) (sent : Bytes)
    (h : cmd_DELETE st net name = Outcome.running st2 net2 sent) :
    Framed sent ∨ sent = ['E', 'R', 'R'] := by
  unfold cmd_DELETE at h
  simp only [Outcome.running.injEq] at h
  rw [← h.2.2]
  generalize (delete_file_and_cache _ name).2 = b
  cases b
  · exact Or.inr (by decide)
  · exact Or.inl (Or.inl (by decide))

theorem cmd_TRASH_framed (st st2 : State) (net net2 : Transport) (name : Name) (sent : Bytes)
    (h : cmd_TRASH st net name = Outcome.running st2 net2 sent) : Framed sent := by
  unfold cmd_TRASH at h
  split at h
  · simp at h
  · split at h
    · simp only [Outcome.running.injEq] at h
      exact Or.inr (Or.inl h.2.2.symm)
    · simp only [Outcome.running.injEq] at h
      exact Or.inl h.2.2.symm

theorem cmd_RESTORE_framed (st st2 : State) (net net2 : Transport) (name : Name) (sent : Bytes)
    (h : cmd_RESTORE st net name = Outcome.running st2 net2 sent) : Framed sent := by
  unfold cmd_RESTORE at h
  split at h
  · simp at h
  · split at h
    · simp only [Outcome.running.injEq] at h
      exact Or.inr (Or.inl h.2.2.symm)
    · simp only [Outcome.running.injEq] at h
      exact Or.inl h.2.2.symm

/-- Framing of the replies (the part of C8 the code keeps): whenever a command line is answered,
the reply is `OK\n`, `ERR\n`, or `OK <n>\n` followed by `n` payload bytes or none, except for the
three bytes `ERR` that only the DELETE branch sends. -/
theorem replies_framed_except_delete (st st2 : State) (line : Bytes) (net net2 : Transport)
    (sent : Bytes) (h : handle_line st line net = Outcome.running st2 net2 sent) :
    Framed sent ∨ sent = ['E', 'R', 'R'] := by
  unfold handle_line at h
  dsimp only at h
  generalize find_char ' ' line 0 = p1 at h
  generalize (match p1 with
    | none => line
    | some i => List.take i line) = cmd at h
  by_cases h1 : cmd = "OPEN".toList
  · rw [if_pos h1] at h
    unfold cmd_OPEN at h
    injection h with _ _ e
    exact Or.inl (Or.inl e.symm)
  rw [if_neg h1] at h
  by_cases h2 : cmd = "LIST".toList
  · rw [if_pos h2] at h
    injection h with _ _ e
    rw [← e]
    exact Or.inl (framed_OK_n_payload _)
  rw [if_neg h2] at h
  by_cases h3 : cmd = "STAT".toList
  · rw [if_pos h3] at h
    by_cases hs : file_size_bytes st.disk.data (name_or_empty line p1) < 0
    · rw [if_pos hs] at h
      injection h with _ _ e
      exact Or.inl (Or.inr (Or.inl e.symm))
    · rw [if_neg hs] at h
      injection h with _ _ e
      rw [← e]
      exact Or.inl (framed_OK_n_ll _ hs)
  rw [if_neg h3] at h
  by_cases h4 : cmd = "READ".toList
  · rw [if_pos h4] at h
    split at h
    · split at h
      · exact Or.inl (cmd_READ_framed _ _ _ _ _ _ _ h)
      · exact Outcome.noConfusion h
    · exact Outcome.noConfusion h
  rw [if_neg h4] at h
  by_cases h5 : cmd = "WRITE".toList
  · rw [if_pos h5] at h
    split at h
    · split at h
      · exact Or.inl (cmd_WRITE_framed _ _ _ _ _ _ _ h)
      · exact Outcome.noConfusion h
    · exact Outcome.noConfusion h
  rw [if_neg h5] at h
  by_cases h6 : cmd = "DELETE".toList
  · rw [if_pos h6] at h
    exact cmd_DELETE_framed _ _ _ _ _ _ h
  rw [if_neg h6] at h
  by_cases h7 : cmd = "LISTTRASH".toList
  · rw [if_pos h7] at h
    injection h with _ _ e
    rw [← e]
    exact Or.inl (framed_OK_n_payload _)
  rw [if_neg h7] at h
  by_cases h8 : cmd = "TRASH".toList
  · rw [if_pos h8] at h
    exact Or.inl (cmd_TRASH_framed _ _ _ _ _ _ h)
  rw [if_neg h8] at h
  by_cases h9 : cmd = "RESTORE".toList
  · rw [if_pos h9] at h
    exact Or.inl (cmd_RESTORE_framed _ _ _ _ _ _ h)
  rw [if_neg h9] at h
  by_cases h10 : cmd = "PURGETRASH".toList
  · rw [if_pos h10] at h
    injection h with _ _ e
    exact Or.inl (Or.inl e.symm)
  rw [if_neg h10] at h
  injection h with _ _ e
  exact Or.inl (Or.inr (Or.inl e.symm))

/-! ## Cache teardown on a move to the trash -/

theorem reg_find_reg_erase_self (n : Name) (r : Registry) : reg_find n (reg_erase n r) = none := by
  induction r with
  | nil => simp [reg_erase, reg_find]
  | cons e es ih =>
    by_cases h : e.1 = n
    · simp [reg_erase, h, ih]
    · simp [reg_erase, reg_find, h, ih]

/-- DELETE tears the cache down (the part of C11 the code keeps): when `delete_file_and_cache`
returns `true`, the registry holds no cache for the name. -/
theorem delete_erases_cache (st : State) (name : Name)
    (h : (delete_file_and_cache st name).2 = true) :
    reg_find name (delete_file_and_cache st name).1.g_fileCaches = none := by
  unfold delete_file_and_cache at h ⊢
  cases hr : fs_rename (holds st.fd name) st.disk.data name st.disk.trash name with
  | none => simp [hr] at h
  | some d => simpa [hr] using reg_find_reg_erase_self name st.g_fileCaches

/-- C11 at the failing input OPEN a, WRITE 0 1 with the byte x, READ 0 1, OPEN b, TRASH a,
OPEN a, READ 0 1, STAT a.  TRASH replies `OK` and leaves the cache of `a` in the registry, so
after OPEN has created a new, empty `a`, READ 0 1 hits the entry cached before the move and
replies `OK 1` with the byte x, although the file is empty (STAT replies `OK 0`).  With DELETE
in the place of TRASH the READ replies `OK 0`. -/
theorem trash_keeps_cache :
    handle_client 9 { data := [], trash := [] } []
        ["OPEN a\nWRITE 0 1\nxREAD 0 1\nOPEN b\nTRASH a\nOPEN a\nREAD 0 1\nSTAT a\n".toList]
      = Final.closed
          { disk := { data := [("store.bin".toList, []), ("b".toList, []), ("a".toList, [])],
                      trash := [("a".toList, ['x'])] },
            g_fileCaches := [("a".toList, LRU.mk [(Key.mk 0 1, ['x'])] 128),
                             ("b".toList, LRU.mk [] 128)],
            trace_id := [], current_name := "a".toList, fd := none }
          "OK\nOK 1\nOK 1\nxOK\nOK\nOK\nOK 1\nxOK 0\n".toList ∧
    (handle_client 9 { data := [], trash := [] } []
        ["OPEN a\nWRITE 0 1\nxREAD 0 1\nOPEN b\nDELETE a\nOPEN a\nREAD 0 1\nSTAT a\n".toList]).sent
      = "OK\nOK 1\nOK 1\nxOK\nOK\nOK\nOK 0\nOK 0\n".toList := by
  decide

/-! ## Payload framing -/

theorem recv_n_loop_exact (net : Transport) :
    ∀ need buf, need ≤ (stream net).length →
      ∃ net2, recv_n_loop net need buf = some (buf ++ (stream net).take need, net2) ∧
        stream net2 = (stream net).drop need := by
  induction net with
  | nil =>
    intro need buf h
    have h0 : need = 0 := by simpa [stream] using h
    subst h0
    exact ⟨[], by simp [recv_n_loop, stream], by simp [stream]⟩
  | cons seg tl ih =>
    intro need buf h
    cases need with
    | zero => exact ⟨seg :: tl, by simp [recv_n_loop], by simp⟩
    | succ n =>
      have hs : stream (seg :: tl) = seg ++ stream tl := by simp [stream]
      rw [hs] at h ⊢
      by_cases hle : seg.length ≤ n + 1
      · have h2 : n + 1 - seg.length ≤ (stream tl).length := by
          simp only [List.length_append] at h
          omega
        obtain ⟨net2, h3, h4⟩ := ih (n + 1 - seg.length) (buf ++ seg) h2
        refine ⟨net2, ?_, ?_⟩
        · simp only [recv_n_loop, if_pos hle, h3]
          rw [List.take_append_eq_append_take, List.take_of_length_le hle]
          simp
        · rw [h4, List.drop_append_eq_append_drop, List.drop_of_length_le hle]
          simp
      · have hlt : n + 1 < seg.length := by omega
        refine ⟨seg.drop (n + 1) :: tl, ?_, ?_⟩
        · simp only [recv_n_loop, if_neg hle]
          rw [List.take_append_of_le_length (by omega)]
        · have hs2 : stream (seg.drop (n + 1) :: tl) = seg.drop (n + 1) ++ stream tl := by
            simp [stream]
          rw [hs2, List.drop_append_of_le_length (by omega)]

theorem recv_n_loop_short (net : Transport) :
    ∀ need buf, (stream net).length < need → recv_n_loop net need buf = none := by
  induction net with
  | nil =>
    intro need buf h
    cases need with
    | zero => simp at h
    | succ n => simp [recv_n_loop]
  | cons seg tl ih =>
    intro need buf h
    have hs : stream (seg :: tl) = seg ++ stream tl := by simp [stream]
    rw [hs, List.length_append] at h
    cases need with
    | zero => simp at h
    | succ n =>
      have hle : seg.length ≤ n + 1 := by omega
      simp only [recv_n_loop, if_pos hle]
      exact ih _ _ (by omega)

/-- Payload framing within the range of `int` (the part of C12 the code keeps): for a WRITE with
`0 <= len < 2^31`, however the stream is cut into segments, when at least `len` bytes are still
to arrive the branch answers and the stream left for the next command is the stream without
its first `len` bytes, whether the write succeeds or is rejected; with fewer bytes to arrive the
reply is `ERR` and the stream is at its end. -/
theorem write_consumes_payload_in_range (st : State) (net : Transport) (off len : Int)
    (hl : fits_long len) :
    (len.toNat ≤ (stream net).length →
      ∃ st2 net2 sent, cmd_WRITE st net off len = Outcome.running st2 net2 sent ∧
        stream net2 = (stream net).drop len.toNat) ∧
    ((stream net).length < len.toNat →
      cmd_WRITE st net off len = Outcome.running st [] ERR) := by
  have hsz : ¬ to_size_t len > vector_max_size := by
    rw [to_size_t_fits len hl]
    have := toNat_le_INT_MAX len hl
    unfold INT_MAX at this
    unfold vector_max_size
    omega
  constructor
  · intro h
    obtain ⟨net2, h1, h2⟩ := recv_n_loop_exact net len.toNat [] h
    have hrecv : recv_n net (to_long len) = some ((stream net).take len.toNat, net2) := by
      rw [to_long_fits len hl]
      simpa [recv_n] using h1
    unfold cmd_WRITE
    rw [if_neg hsz, hrecv]
    dsimp only
    split
    · exact ⟨_, net2, _, rfl, h2⟩
    · exact ⟨_, net2, _, rfl, h2⟩
  · intro h
    have hrecv : recv_n net (to_long len) = none := by
      rw [to_long_fits len hl]
      exact recv_n_loop_short net len.toNat [] h
    unfold cmd_WRITE
    rw [if_neg hsz, hrecv]

/-- C12 at the failing input `WRITE 0 4294967296`: `recv_n` is called with `(int)len`, which is
`0`, so no byte of the payload is consumed, whatever is to arrive; `do_write` then fails and the
reply is `ERR`.  The bytes of the payload are decoded as the next commands: when the payload
starts with `LIST` and a line terminator, the server replies to a LIST command. -/
theorem write_length_2_pow_32_consumes_nothing (st : State) (net : Transport) :
    (∃ st2, handle_line st "WRITE 0 4294967296".toList net = Outcome.running st2 net ERR) ∧
    (handle_client 5 { data := [], trash := [] } []
        ["WRITE 0 4294967296\n".toList, "LIST\n".toList]).sent = "ERR\nOK 0\n".toList := by
  refine ⟨?_, by decide⟩
  have hline : handle_line st "WRITE 0 4294967296".toList net = cmd_WRITE st net 0 4294967296 :=
    rfl
  have hsz : ¬ to_size_t 4294967296 > vector_max_size := by decide
  have hrecv : recv_n net (to_long 4294967296) = some ([], net) := by
    have e : to_long 4294967296 = 0 := by decide
    rw [e]
    cases net <;> rfl
  have hw : ∀ buf, (do_write st st.current_name 0 buf 4294967296).2 = false := by
    intro buf
    have hneg : ¬ ((0 : Int) < 0 ∨ (4294967296 : Int) < 0) := by decide
    have hc : to_unsigned 4294967296 = 0 := by decide
    unfold do_write
    rw [if_neg hneg]
    dsimp only
    rw [hc]
    cases _lseek st.fd (to_long 0) with
    | none => simp [_write]
    | some o => simp [_write]
  rw [hline]
  unfold cmd_WRITE
  rw [if_neg hsz, hrecv]
  dsimp only
  rw [hw]
  exact ⟨_, rfl⟩

/-! ## Line decoding -/

theorem recv_line_seg_append (a b : Bytes) :
    ∀ out, recv_line_seg (a ++ b) out =
      match recv_line_seg a out with
      | LineScan.done line r => LineScan.done line (r ++ b)
      | LineScan.more out2 => recv_line_seg b out2
      | LineScan.too_long => LineScan.too_long := by
  induction a with
  | nil => intro out; simp [recv_line_seg]
  | cons c cs ih =>
    intro out
    simp only [List.cons_append, recv_line_seg]
    by_cases hc : c = '\n'
    · simp [hc]
    · simp only [hc, if_false]
      by_cases hlen : (if c = '\r' then out else out ++ [c]).length > 4096
      · simp [hlen]
      · simp only [hlen, if_false]
        exact ih _

theorem recv_line_loop_stream (net : Transport) :
    ∀ out,
      match recv_line_seg (stream net) out with
      | LineScan.done line r =>
        ∃ net2, recv_line_loop net out = some (line, net2) ∧ stream net2 = r
      | LineScan.more _ => recv_line_loop net out = none
      | LineScan.too_long => recv_line_loop net out = none := by
  induction net with
  | nil => intro out; simp [stream, recv_line_seg, recv_line_loop]
  | cons seg tl ih =>
    intro out
    have hs : stream (seg :: tl) = seg ++ stream tl := by simp [stream]
    rw [hs, recv_line_seg_append]
    cases h : recv_line_seg seg out with
    | done line r =>
      exact ⟨r :: tl, by simp [recv_line_loop, h], by simp [stream]⟩
    | too_long => simp [recv_line_loop, h]
    | more out2 =>
      have := ih out2
      simp only [recv_line_loop, h]
      exact this

theorem strip_cr_cons (c : Char) (cs : Bytes) :
    strip_cr (c :: cs) = if c = '\r' then strip_cr cs else c :: strip_cr cs := by
  by_cases h : c = '\r'
  · simp [strip_cr, h]
  · simp [strip_cr, h]

theorem recv_line_seg_first_line (pre rest : Bytes) (hpre : '\n' ∉ pre) :
    ∀ out, out.length ≤ 4096 →
      recv_line_seg (pre ++ '\n' :: rest) out =
        if (out ++ strip_cr pre).length ≤ 4096 then LineScan.done (out ++ strip_cr pre) rest
        else LineScan.too_long := by
  induction pre with
  | nil =>
    intro out hout
    simp [recv_line_seg, strip_cr, hout]
  | cons c cs ih =>
    intro out hout
    have hc : ¬ c = '\n' := fun e => hpre (by simp [e])
    have hcs : '\n' ∉ cs := fun h => hpre (List.mem_cons_of_mem _ h)
    have hout2 : out ++ strip_cr (c :: cs) = (if c = '\r' then out else out ++ [c]) ++ strip_cr cs := by
      rw [strip_cr_cons]
      by_cases h : c = '\r'
      · simp [h]
      · simp [h]
    simp only [List.cons_append, recv_line_seg, hc, if_false]
    rw [hout2]
    by_cases hlen : (if c = '\r' then out else out ++ [c]).length > 4096
    · have hbig : ¬ ((if c = '\r' then out else out ++ [c]) ++ strip_cr cs).length ≤ 4096 := by
        rw [List.length_append]
        omega
      rw [if_pos hlen, if_neg hbig]
    · rw [if_neg hlen]
      exact ih hcs _ (by omega)

/-- C13 (amended). Line decoding: when the byte stream still to arrive, cut into segments in
any way, is `pre`, a line terminator, and `rest`, with no line terminator in `pre`, then
`recv_line` returns `pre` with every carriage return removed and no other byte removed, and
leaves `rest` as the stream, provided the returned line is at most 4096 bytes long; it returns
`false` (a framing error) exactly when that line is longer than 4096 bytes. -/
theorem recv_line_decodes (net : Transport) (pre rest : Bytes)
    (hs : stream net = pre ++ '\n' :: rest) (hpre : '\n' ∉ pre) :
    ((strip_cr pre).length ≤ 4096 →
      ∃ net2, recv_line net = some (strip_cr pre, net2) ∧ stream net2 = rest) ∧
    (4096 < (strip_cr pre).length → recv_line net = none) := by
  have h1 := recv_line_loop_stream net []
  rw [hs, recv_line_seg_first_line pre rest hpre [] (by simp)] at h1
  simp only [List.nil_append] at h1
  constructor
  · intro hle
    rw [if_pos hle] at h1
    exact h1
  · intro hgt
    rw [if_neg (by omega)] at h1
    exact h1

/-- Instance of `recv_line_decodes`: the stream `OPEN a\r\nLIST\n` in two segments. -/
theorem recv_line_decodes_witness :
    stream ["OPEN".toList, " a\r\nLIST\n".toList] = "OPEN a\r".toList ++ '\n' :: "LIST\n".toList ∧
    '\n' ∉ "OPEN a\r".toList ∧
    (((strip_cr "OPEN a\r".toList).length ≤ 4096 →
      ∃ net2, recv_line ["OPEN".toList, " a\r\nLIST\n".toList]
          = some (strip_cr "OPEN a\r".toList, net2) ∧ stream net2 = "LIST\n".toList) ∧
    (4096 < (strip_cr "OPEN a\r".toList).length →
      recv_line ["OPEN".toList, " a\r\nLIST\n".toList] = none)) :=
  ⟨by decide, by decide,
    recv_line_decodes ["OPEN".toList, " a\r\nLIST\n".toList] "OPEN a\r".toList "LIST\n".toList
      (by decide) (by decide)⟩

/-- C13 as stated fails on the stream `a\rb\n`: the bytes before the line terminator are
`a\rb`, whose last byte is not a carriage return, so the spec's line is `a\rb`; `recv_line`
returns `ab`, the carriage return in the middle removed. -/
theorem recv_line_drops_inner_cr :
    stream ["a\rb\n".toList] = "a\rb".toList ++ '\n' :: [] ∧
    '\n' ∉ "a\rb".toList ∧
    strip_one_cr "a\rb".toList = "a\rb".toList ∧
    recv_line ["a\rb\n".toList] = some ("ab".toList, [[]]) ∧
    "ab".toList ≠ strip_one_cr "a\rb".toList := by
  decide

/-! ## The first line of a connection -/

theorem open_rw_create_fd (data : Dir) (name : Name) :
    (open_rw_create data name).2 = some { name := name, pos := 0 } := by
  unfold open_rw_create
  cases dir_find name data <;> rfl

theorem handle_client_enters_loop (fuel : Nat) (disk : Disk) (reg : Registry)
    (net net2 : Transport) (L : Bytes) (h : recv_line net = some (L, net2)) :
    handle_client fuel disk reg net
      = command_loop fuel
          (running_state disk reg (if "TRACE ".toList.isPrefixOf L then L.drop 6 else []))
          (if "TRACE ".toList.isPrefixOf L then [] else L) net2 [] := by
  unfold handle_client
  rw [h]
  simp only [open_rw_create_fd, running_state]

theorem command_loop_pending (fuel : Nat) (st : State) (net net2 : Transport) (L sent : Bytes)
    (h : recv_line net = some (L, net2)) :
    command_loop fuel st L net2 sent
      = command_loop (if L = [] then fuel + 1 else fuel) st [] net sent := by
  by_cases hL : L = []
  · subst hL
    rw [if_pos rfl]
    conv_rhs => rw [command_loop]
    simp [h]
  · rw [if_neg hL]
    cases fuel with
    | zero => rfl
    | succ n =>
      conv_lhs => rw [command_loop]
      conv_rhs => rw [command_loop]
      simp [h, hL]

/-- C14. First-line handling, for every first line `L` that `recv_line` delivers, `net2` being
what follows it on the transport.  When `L` starts with `TRACE `, the session enters its
command loop with the rest of `L` as its correlation id, nothing sent, no pending line, and
`net2` to read the first command from.  Otherwise the session does what a Running session
(empty correlation id, `store.bin` active, nothing sent, no pending line) does that receives the
whole transport, `L` first, as command lines: same replies and same resulting state.  A Running
session spends one turn of its loop on skipping an empty `L`, hence the `fuel + 1`. -/
theorem first_line_handling (fuel : Nat) (disk : Disk) (reg : Registry) (net net2 : Transport)
    (L : Bytes) (h : recv_line net = some (L, net2)) :
    ("TRACE ".toList.isPrefixOf L = true →
      handle_client fuel disk reg net
        = command_loop fuel (running_state disk reg (L.drop 6)) [] net2 []) ∧
    ("TRACE ".toList.isPrefixOf L = false →
      handle_client fuel disk reg net
        = command_loop (if L = [] then fuel + 1 else fuel) (running_state disk reg []) [] net
            []) := by
  have h1 := handle_client_enters_loop fuel disk reg net net2 L h
  constructor
  · intro ht
    rw [h1, if_pos ht, if_pos ht]
  · intro ht
    rw [h1]
    simp only [ht, Bool.false_eq_true, if_false]
    exact command_loop_pending fuel (running_state disk reg []) net net2 L [] h

/-- Instance of `first_line_handling`: the transport `STAT store.bin`, line terminator, `LIST`,
line terminator; the first line does not start with `TRACE `. -/
theorem first_line_handling_witness :
    recv_line ["STAT store.bin\nLIST\n".toList]
      = some ("STAT store.bin".toList, ["LIST\n".toList]) ∧
    (("TRACE ".toList.isPrefixOf "STAT store.bin".toList = true →
      handle_client 4 { data := [], trash := [] } [] ["STAT store.bin\nLIST\n".toList]
        = command_loop 4
            (running_state { data := [], trash := [] } [] ("STAT store.bin".toList.drop 6)) []
            ["LIST\n".toList] []) ∧
    ("TRACE ".toList.isPrefixOf "STAT store.bin".toList = false →
      handle_client 4 { data := [], trash := [] } [] ["STAT store.bin\nLIST\n".toList]
        = command_loop (if "STAT store.bin".toList = [] then 4 + 1 else 4)
            (running_state { data := [], trash := [] } [] []) []
            ["STAT store.bin\nLIST\n".toList] [])) :=
  ⟨by decide,
    first_line_handling 4 { data := [], trash := [] } [] ["STAT store.bin\nLIST\n".toList]
      ["LIST\n".toList] "STAT store.bin".toList (by decide)⟩

/-- The two cases of the first line on examples: after `TRACE abc` the correlation id is `abc`
and the reply to the next line is the first reply; `STAT store.bin` as the first line is
answered. -/
theorem first_line_examples :
    handle_client 4 { data := [], trash := [] } [] ["TRACE abc\nSTAT store.bin\n".toList]
      = Final.closed
          { disk := { data := [("store.bin".toList, [])], trash := [] }, g_fileCaches := [],
            trace_id := "abc".toList, current_name := DEFAULT_FN, fd := none }
          "OK 0\n".toList ∧
    handle_client 4 { data := [], trash := [] } [] ["STAT store.bin\n".toList]
      = Final.closed
          { disk := { data := [("store.bin".toList, [])], trash := [] }, g_fileCaches := [],
            trace_id := [], current_name := DEFAULT_FN, fd := none }
          "OK 0\n".toList := by
  decide

/-! ## Dispatch of the commands that take a name -/

theorem handle_line_DELETE (st : State) (net : Transport) (name : Name) :
    handle_line st ("DELETE ".toList ++ name) net = cmd_DELETE st net name := rfl

theorem handle_line_STAT (st : State) (net : Transport) (name : Name) :
    handle_line st ("STAT ".toList ++ name) net
      = if file_size_bytes st.disk.data name < 0 then Outcome.running st net ERR
        else Outcome.running st net (OK_n (to_string_ll (file_size_bytes st.disk.data name))) :=
  rfl

theorem handle_line_TRASH (st : State) (net : Transport) (name : Name) :
    handle_line st ("TRASH ".toList ++ name) net = cmd_TRASH st net name := rfl

theorem handle_line_RESTORE (st : State) (net : Transport) (name : Name) :
    handle_line st ("RESTORE ".toList ++ name) net = cmd_RESTORE st net name := rfl

theorem handle_line_LISTTRASH (st : State) (net : Transport) :
    handle_line st "LISTTRASH".toList net
      = Outcome.running st net
          (OK_n (to_string (list_trash_payload st.disk.trash).length)
            ++ list_trash_payload st.disk.trash) := rfl

theorem handle_line_LIST (st : State) (net : Transport) :
    handle_line st "LIST".toList net
      = Outcome.running st net
          (OK_n (to_string (list_files_payload st.disk.data).length)
            ++ list_files_payload st.disk.data) := rfl

/-! ## Directory listings and the state after DELETE -/

theorem dir_find_dir_erase_self (n : Name) (d : Dir) : dir_find n (dir_erase n d) = none := by
  induction d with
  | nil => simp [dir_erase, dir_find]
  | cons e es ih =>
    by_cases h : e.1 = n
    · simp [dir_erase, h, ih]
    · simp [dir_erase, dir_find, h, ih]

theorem dir_find_dir_erase_ne (f n : Name) (d : Dir) (h : f ≠ n) :
    dir_find f (dir_erase n d) = dir_find f d := by
  induction d with
  | nil => simp [dir_erase]
  | cons e es ih =>
    by_cases he : e.1 = n
    · have h3 : ¬ n = f := fun e2 => h e2.symm
      simp [dir_erase, dir_find, he, h3, ih]
    · have h4 : ¬ f = n := h
      by_cases h3 : e.1 = f
      · simp [dir_erase, dir_find, he, h3, h4]
      · simp [dir_erase, dir_find, he, h3, ih]

theorem dir_erase_of_absent (n : Name) (d : Dir) (h : dir_find n d = none) :
    dir_erase n d = d := by
  induction d with
  | nil => rfl
  | cons e es ih =>
    by_cases he : e.1 = n
    · simp [dir_find, he] at h
    · simp only [dir_find, he, if_false] at h
      simp [dir_erase, he, ih h]

theorem dir_erase_dir_set (n : Name) (c : Bytes) (d : Dir) (h : dir_find n d = none) :
    dir_erase n (dir_set n c d) = d := by
  induction d with
  | nil => simp [dir_set, dir_erase]
  | cons e es ih =>
    by_cases he : e.1 = n
    · simp [dir_find, he] at h
    · simp only [dir_find, he, if_false] at h
      simp [dir_set, dir_erase, he, ih h]

theorem has_line_trash (n : Name) (d : Dir) (h : n ∈ d.map Prod.fst) :
    has_line (list_trash_payload d) n := by
  induction d with
  | nil => simp at h
  | cons e es ih =>
    by_cases he : e.1 = n
    · exact ⟨[], list_trash_payload es, by simp [list_trash_payload, he], Or.inl rfl⟩
    · have hin : n ∈ es.map Prod.fst := by
        have h2 : ¬ n = e.1 := fun e2 => he e2.symm
        simpa [h2] using h
      obtain ⟨before, after, hp, hb⟩ := ih hin
      refine ⟨e.1 ++ '\n' :: before, after, by simp [list_trash_payload, hp], Or.inr ?_⟩
      rcases hb with rfl | hb
      · exact List.getLast?_concat e.1
      · have e2 : e.1 ++ '\n' :: before = (e.1 ++ ['\n']) ++ before := by simp
        rw [e2, List.getLast?_append, hb]
        rfl

theorem has_line_files (n : Name) (d : Dir) (h : n ∈ d.map Prod.fst)
    (hvis : ¬ (n = DEFAULT_FN ∨ n = "default.tmp".toList ∨ n.head? = some '.')) :
    has_line (list_files_payload d) n := by
  induction d with
  | nil => simp at h
  | cons e es ih =>
    by_cases he : e.1 = n
    · have hv : ¬ (e.1 = DEFAULT_FN ∨ e.1 = "default.tmp".toList ∨ e.1.head? = some '.') := by
        rw [he]
        exact hvis
      refine ⟨[], list_files_payload es, ?_, Or.inl rfl⟩
      rw [list_files_payload, if_neg hv, he]
      simp
    · have hin : n ∈ es.map Prod.fst := by
        have h2 : ¬ n = e.1 := fun e2 => he e2.symm
        simpa [h2] using h
      obtain ⟨before, after, hp, hb⟩ := ih hin
      by_cases hv : e.1 = DEFAULT_FN ∨ e.1 = "default.tmp".toList ∨ e.1.head? = some '.'
      · exact ⟨before, after, by simp only [list_files_payload, if_pos hv, hp], hb⟩
      · refine ⟨e.1 ++ '\n' :: before, after, ?_, Or.inr ?_⟩
        · simp only [list_files_payload, if_neg hv, hp]
          simp
        · rcases hb with rfl | hb
          · exact List.getLast?_concat e.1
          · have e2 : e.1 ++ '\n' :: before = (e.1 ++ ['\n']) ++ before := by simp
            rw [e2, List.getLast?_append, hb]
            rfl

theorem mem_names_dir_set (n : Name) (c : Bytes) (d : Dir) : n ∈ (dir_set n c d).map Prod.fst :=
  (dir_exists_iff n _).1 (by simp [dir_exists, dir_find_dir_set_self])

theorem dir_find_open_rw_create_ne (f n : Name) (d : Dir) (h : f ≠ n) :
    dir_find f (open_rw_create d n).1 = dir_find f d := by
  unfold open_rw_create
  cases dir_find n d with
  | some c => rfl
  | none => exact dir_find_dir_set_ne f n [] d h

theorem delete_ok_moves (st : State) (name : Name)
    (h : (delete_file_and_cache st name).2 = true) :
    ∃ content, dir_find name st.disk.data = some content ∧
      (delete_file_and_cache st name).1.disk.data = dir_erase name st.disk.data ∧
      (delete_file_and_cache st name).1.disk.trash = dir_set name content st.disk.trash := by
  unfold delete_file_and_cache at h ⊢
  unfold fs_rename at h ⊢
  cases hh : holds st.fd name with
  | true => simp [hh] at h
  | false =>
    cases hd : dir_find name st.disk.data with
    | none => simp [hh, hd] at h
    | some content => exact ⟨content, rfl, by simp, by simp⟩

theorem cmd_DELETE_ok (st st2 : State) (net net2 : Transport) (name : Name)
    (h : cmd_DELETE st net name = Outcome.running st2 net2 OK) :
    ∃ content, dir_find name st.disk.data = some content ∧ net2 = net ∧
      st2.disk.trash = dir_set name content st.disk.trash ∧
      st2.disk.data
        = (if name = st.current_name then
            (open_rw_create (dir_erase name st.disk.data) DEFAULT_FN).1
           else dir_erase name st.disk.data) := by
  unfold cmd_DELETE at h
  dsimp only at h
  injection h with hst hnet hsent
  by_cases hcur : name = st.current_name
  · have hd : decide (name = st.current_name) = true := by simp [hcur]
    rw [hd] at hst hsent
    simp only [if_true] at hst hsent
    have hok : (delete_file_and_cache { st with fd := none } name).2 = true := by
      cases hb : (delete_file_and_cache { st with fd := none } name).2 with
      | true => rfl
      | false =>
        rw [hb] at hsent
        exact absurd hsent (by decide)
    obtain ⟨content, hc, hdata, htrash⟩ := delete_ok_moves _ name hok
    refine ⟨content, hc, hnet.symm, ?_, ?_⟩
    · rw [← hst]
      exact htrash
    · rw [← hst, if_pos hcur]
      dsimp only
      rw [hdata]
  · have hd : decide (name = st.current_name) = false := by simp [hcur]
    rw [hd] at hst hsent
    simp only [Bool.false_eq_true, if_false] at hst hsent
    have hok : (delete_file_and_cache st name).2 = true := by
      cases hb : (delete_file_and_cache st name).2 with
      | true => rfl
      | false =>
        rw [hb] at hsent
        exact absurd hsent (by decide)
    obtain ⟨content, hc, hdata, htrash⟩ := delete_ok_moves _ name hok
    refine ⟨content, hc, hnet.symm, ?_, ?_⟩
    · rw [← hst]
      exact htrash
    · rw [← hst, if_neg hcur]
      exact hdata

/-- C15 (amended). State after DELETE: when `DELETE name` replies `OK` (the file existed, active
or not), the payload of LISTTRASH has `name` as one of its lines, and `STAT name` replies `ERR`,
except when `name` is the placeholder `store.bin` and it was the active file: the DELETE branch
then reopens the placeholder, which creates it again, empty, and `STAT name` replies `OK 0`. -/
theorem state_after_delete (st st2 : State) (net net2 : Transport) (name : Name)
    (hdel : handle_line st ("DELETE ".toList ++ name) net = Outcome.running st2 net2 OK) :
    (∃ content, dir_find name st.disk.data = some content) ∧
    handle_line st2 "LISTTRASH".toList net2
      = Outcome.running st2 net2
          (OK_n (to_string (list_trash_payload st2.disk.trash).length)
            ++ list_trash_payload st2.disk.trash) ∧
    has_line (list_trash_payload st2.disk.trash) name ∧
    (¬ (name = DEFAULT_FN ∧ st.current_name = DEFAULT_FN) →
      handle_line st2 ("STAT ".toList ++ name) net2 = Outcome.running st2 net2 ERR) ∧
    (name = DEFAULT_FN ∧ st.current_name = DEFAULT_FN →
      handle_line st2 ("STAT ".toList ++ name) net2
        = Outcome.running st2 net2 (OK_n (to_string 0))) := by
  rw [handle_line_DELETE] at hdel
  obtain ⟨content, hc, _, htrash, hdata⟩ := cmd_DELETE_ok st st2 net net2 name hdel
  refine ⟨⟨content, hc⟩, rfl, ?_, ?_, ?_⟩
  · rw [htrash]
    exact has_line_trash name _ (mem_names_dir_set name content st.disk.trash)
  · intro hne
    have hgone : dir_find name st2.disk.data = none := by
      rw [hdata]
      by_cases hcur : name = st.current_name
      · rw [if_pos hcur]
        have hnd : name ≠ DEFAULT_FN := fun e => hne ⟨e, hcur.symm.trans e⟩
        rw [dir_find_open_rw_create_ne name DEFAULT_FN _ hnd]
        exact dir_find_dir_erase_self name _
      · rw [if_neg hcur]
        exact dir_find_dir_erase_self name _
    rw [handle_line_STAT]
    simp [file_size_bytes, hgone]
  · intro hboth
    have hcur : name = st.current_name := hboth.1.trans hboth.2.symm
    have hnew : dir_find name st2.disk.data = some [] := by
      rw [hdata, if_pos hcur, hboth.1]
      have hg : dir_find DEFAULT_FN (dir_erase DEFAULT_FN st.disk.data) = none :=
        dir_find_dir_erase_self _ _
      simp [open_rw_create, hg, dir_find_dir_set_self]
    rw [handle_line_STAT]
    simp [file_size_bytes, hnew, to_string_ll]

/-- Instance of `state_after_delete`: `DELETE photo` in `photo_state`. -/
theorem state_after_delete_witness :
    handle_line photo_state ("DELETE ".toList ++ "photo".toList) []
      = Outcome.running photo_trashed_state [] OK ∧
    ((∃ content, dir_find "photo".toList photo_state.disk.data = some content) ∧
    handle_line photo_trashed_state "LISTTRASH".toList []
      = Outcome.running photo_trashed_state []
          (OK_n (to_string (list_trash_payload photo_trashed_state.disk.trash).length)
            ++ list_trash_payload photo_trashed_state.disk.trash) ∧
    has_line (list_trash_payload photo_trashed_state.disk.trash) "photo".toList ∧
    (¬ ("photo".toList = DEFAULT_FN ∧ photo_state.current_name = DEFAULT_FN) →
      handle_line photo_trashed_state ("STAT ".toList ++ "photo".toList) []
        = Outcome.running photo_trashed_state [] ERR) ∧
    ("photo".toList = DEFAULT_FN ∧ photo_state.current_name = DEFAULT_FN →
      handle_line photo_trashed_state ("STAT ".toList ++ "photo".toList) []
        = Outcome.running photo_trashed_state [] (OK_n (to_string 0)))) :=
  ⟨by decide,
    state_after_delete photo_state photo_trashed_state [] [] "photo".toList (by decide)⟩

/-- C15 as stated fails for the placeholder while it is the active file: in a session that has
just started, `store.bin` exists as a regular file of the data directory, `DELETE store.bin`
replies `OK`, and `STAT store.bin` then replies `OK 0`, not `ERR`, because the DELETE branch has
reopened, and so created again, the placeholder. -/
theorem delete_placeholder_counterexample :
    dir_find "store.bin".toList
        (running_state { data := [("store.bin".toList, "hi".toList)], trash := [] } []
          []).disk.data = some "hi".toList ∧
    handle_line
        (running_state { data := [("store.bin".toList, "hi".toList)], trash := [] } [] [])
        "DELETE store.bin".toList []
      = Outcome.running
          { disk := { data := [("store.bin".toList, [])],
                      trash := [("store.bin".toList, "hi".toList)] },
            g_fileCaches := [], trace_id := [], current_name := DEFAULT_FN,
            fd := some { name := DEFAULT_FN, pos := 0 } }
          [] OK ∧
    handle_line
        { disk := { data := [("store.bin".toList, [])],
                    trash := [("store.bin".toList, "hi".toList)] },
          g_fileCaches := [], trace_id := [], current_name := DEFAULT_FN,
          fd := some { name := DEFAULT_FN, pos := 0 } }
        "STAT store.bin".toList []
      = Outcome.running
          { disk := { data := [("store.bin".toList, [])],
                      trash := [("store.bin".toList, "hi".toList)] },
            g_fileCaches := [], trace_id := [], current_name := DEFAULT_FN,
            fd := some { name := DEFAULT_FN, pos := 0 } }
          [] "OK 0\n".toList ∧
    (handle_client 5 { data := [("store.bin".toList, "hi".toList)], trash := [] } []
        ["DELETE store.bin\nSTAT store.bin\nLISTTRASH\n".toList]).sent
      = "OK\nOK 0\nOK 10\nstore.bin\n".toList := by
  decide

/-! ## Trash and restore -/

theorem free_name_of_free (dir : Dir) (name : Name) (h : dir_find name dir = none) :
    free_name dir name = some (name, 1) := by
  simp [free_name, free_name_loop, dir_exists, h]

/-- The round trip for a file the session does not hold open (the part of C16 the code keeps):
when `name` exists in the data directory, not in the trash, and the descriptor of the session
does not refer to it, `TRASH name` and then `RESTORE name` both reply `OK`; afterwards the data
directory holds `name` with its contents and every other file as before, and the trash is what
it was; the LISTTRASH payload in between has `name` as a line, and so has the LIST payload
afterwards when LIST does not hide `name`. -/
theorem trash_restore_round_trip (st : State) (net : Transport) (name : Name) (content : Bytes)
    (hdata : dir_find name st.disk.data = some content)
    (htrash : dir_find name st.disk.trash = none)
    (hfree : holds st.fd name = false) :
    ∃ st1 st2,
      handle_line st ("TRASH ".toList ++ name) net = Outcome.running st1 net OK ∧
      handle_line st1 ("RESTORE ".toList ++ name) net = Outcome.running st2 net OK ∧
      dir_find name st2.disk.data = some content ∧
      (∀ f, f ≠ name → dir_find f st2.disk.data = dir_find f st.disk.data) ∧
      st2.disk.trash = st.disk.trash ∧
      has_line (list_trash_payload st1.disk.trash) name ∧
      (¬ (name = DEFAULT_FN ∨ name = "default.tmp".toList ∨ name.head? = some '.') →
        has_line (list_files_payload st2.disk.data) name) := by
  have h1 : cmd_TRASH st net name
      = Outcome.running
          { st with disk := { data := dir_erase name st.disk.data,
                              trash := dir_set name content st.disk.trash } } net OK := by
    simp [cmd_TRASH, free_name_of_free _ name htrash, fs_rename, hfree, hdata]
  have hgone : dir_find name (dir_erase name st.disk.data) = none :=
    dir_find_dir_erase_self name _
  have hthere : dir_find name (dir_set name content st.disk.trash) = some content :=
    dir_find_dir_set_self name content _
  have h2 : cmd_RESTORE
        { st with disk := { data := dir_erase name st.disk.data,
                            trash := dir_set name content st.disk.trash } } net name
      = Outcome.running
          { st with disk := { data := dir_set name content (dir_erase name st.disk.data),
                              trash := st.disk.trash } } net OK := by
    simp [cmd_RESTORE, free_name_of_free _ name hgone, fs_rename, hthere,
      dir_erase_dir_set name content _ htrash]
  refine ⟨_, _, (handle_line_TRASH st net name).trans h1,
    (handle_line_RESTORE _ net name).trans h2, ?_, ?_, rfl, ?_, ?_⟩
  · exact dir_find_dir_set_self name content _
  · intro f hf
    show dir_find f (dir_set name content (dir_erase name st.disk.data)) = _
    rw [dir_find_dir_set_ne f name content _ hf, dir_find_dir_erase_ne f name _ hf]
  · exact has_line_trash name _ (mem_names_dir_set name content _)
  · intro hvis
    exact has_line_files name _ (mem_names_dir_set name content _) hvis

/-- C16 at the failing input: the data directory holds `photo` (bytes `hi`), the trash is empty,
and the session sends OPEN photo, TRASH photo, RESTORE photo, LIST.  `photo` is then the active
file, held open by the descriptor of the session, so `fs::rename` fails and TRASH replies `ERR`;
RESTORE finds nothing in the trash and replies `ERR` too.  The DELETE branch closes the
descriptor before the move: with DELETE in the place of TRASH the move succeeds. -/
theorem trash_of_active_file_fails :
    handle_client 6 { data := [("photo".toList, "hi".toList)], trash := [] } []
        ["OPEN photo\nTRASH photo\nRESTORE photo\nLIST\n".toList]
      = Final.closed
          { disk := { data := [("photo".toList, "hi".toList), ("store.bin".toList, [])],
                      trash := [] },
            g_fileCaches := [("photo".toList, LRU.mk [] 128)],
            trace_id := [], current_name := "photo".toList, fd := none }
          "OK\nERR\nERR\nOK 6\nphoto\n".toList ∧
    (handle_client 6 { data := [("photo".toList, "hi".toList)], trash := [] } []
        ["OPEN photo\nDELETE photo\nLISTTRASH\n".toList]).sent
      = "OK\nOK\nOK 6\nphoto\n".toList := by
  decide

end LruNfs
